import Mathlib

/-! crypt: recipient selection and the secconf codec.

A shallow embedding of `bin/crypt/cmd.go` (the recipient selector `pubkeyFilter.Entities`
and the pattern derivation of `setCmd`) and of `encoding/secconf/secconf.go`
(`filterKeys.filter`, `encode`, `Encode`, `EncodeWith`, `Decode`).

A Go `string` and a Go `[]byte` are byte sequences.  The library operations the selector
uses (`strings.Contains`, `strings.TrimRight` with cutset `"/"`, `path.Split`) only compare
elements for equality, so the element type is immaterial; lists of `Char` are used so that
the examples read as text (for ASCII text a character is a byte).
-/

namespace Crypt

/-- A Go `string`: a sequence of bytes. -/
abbrev GoString := List Char

/-- A Go `[]byte`. -/
abbrev Bytes := List Char

/-! ## Library functions on strings and paths (Go standard library) -/

/-- `strings.HasPrefix(s, prefix)`. -/
def HasPrefix : GoString → GoString → Bool
  | _, [] => true
  | [], _ :: _ => false
  | c :: s, d :: p => c == d && HasPrefix s p

/-- `strings.Contains(s, substr)`: some position of `s` starts an occurrence of `substr`. -/
def Contains : GoString → GoString → Bool
  | [], substr => HasPrefix [] substr
  | c :: s, substr => HasPrefix (c :: s) substr || Contains s substr

/-- `strings.TrimRight(s, cutset)`: `s` without its trailing bytes that occur in `cutset`. -/
def TrimRight (s cutset : GoString) : GoString :=
  s.rdropWhile (fun c => cutset.contains c)

/-- `strings.LastIndex(s, "/")`: the index of the last `/` of `s`, or `-1`. -/
def LastIndexSlash : GoString → Int
  | [] => -1
  | c :: s =>
    let i := LastIndexSlash s
    if 0 ≤ i then i + 1 else if c = '/' then 0 else -1

/-- `path.Split(path)`: `i := strings.LastIndex(path, "/"); return path[:i+1], path[i+1:]`. -/
def Split (path : GoString) : GoString × GoString :=
  let i := LastIndexSlash path
  (path.take (i + 1).toNat, path.drop (i + 1).toNat)

/-! ## OpenPGP data model (the fields of `golang.org/x/crypto/openpgp` the program reads) -/

/-- `openpgp.Identity`: only `Name` is read. -/
structure Identity where
  Name : GoString
  deriving DecidableEq, Repr

/-- `packet.PublicKey`: the 64-bit key id and what `KeyIdShortString()` returns. -/
structure PublicKey where
  KeyId : Nat
  KeyIdShortString : GoString
  deriving DecidableEq, Repr

/-- `packet.PrivateKey`.  `ref` identifies the object (keys share it by pointer and
`Decrypt` changes it in place), `Encrypted` is the flag as read from the keyring, and
`passphrase` is the passphrase that protects the key material. -/
structure PrivateKey where
  ref : Nat
  Encrypted : Bool
  passphrase : Bytes
  deriving DecidableEq, Repr

/-- `openpgp.Entity`: its identities (the values of the `Identities` map, in the order
one iteration of the map yields them), its primary key and its private key, if any.
`hasEncryptionKey` is whether `encryptionKey` finds a usable key.  Subkeys are not
modelled: the primary key is the entity's only key. -/
structure Entity where
  Identities : List Identity
  PrimaryKey : PublicKey
  PrivateKey : Option PrivateKey
  hasEncryptionKey : Bool
  deriving DecidableEq, Repr

/-- `openpgp.EntityList`. -/
abbrev EntityList := List Entity

/-! ## `bin/crypt/cmd.go`: the recipient selector -/

/-- `type pubkeyFilter []string`. -/
abbrev pubkeyFilter := List GoString

/-- The innermost loop of `Entities`: `for _, k := range pk { if strings.Contains(id.Name, k) ... }`;
`true` when the labelled `break` is taken. -/
def matchPatterns (name : GoString) : pubkeyFilter → Bool
  | [] => false
  | k :: pk => if Contains name k then true else matchPatterns name pk

/-- The middle loop of `Entities`: `for _, id := range e.Identities`. -/
def matchIdentities (pk : pubkeyFilter) : List Identity → Bool
  | [] => false
  | id :: ids => if matchPatterns id.Name pk then true else matchIdentities pk ids

/-- The outer loop of `Entities`, labelled `entityFilterLoop`: at the first match the entity
is appended to `el` and `break entityFilterLoop` leaves all three loops. -/
def entityFilterLoop (pk : pubkeyFilter) : List Entity → EntityList → EntityList
  | [], el => el
  | e :: ents, el =>
    if matchIdentities pk e.Identities then el ++ [e] else entityFilterLoop pk ents el

/-- `func (pk pubkeyFilter) Entities(ents ...*openpgp.Entity) openpgp.EntityList`. -/
def pubkeyFilter.Entities (pk : pubkeyFilter) (ents : List Entity) : EntityList :=
  entityFilterLoop pk ents []

/-- The selection rule in the words of the specification: some identity name of the entity
contains some pattern as a (case-sensitive) substring. -/
def Selected (pk : pubkeyFilter) (e : Entity) : Prop :=
  ∃ id ∈ e.Identities, ∃ k ∈ pk, k <:+: id.Name

instance (pk : pubkeyFilter) (e : Entity) : Decidable (Selected pk e) := by
  unfold Selected; infer_instance

/-! ## `bin/crypt/cmd.go`: the default pattern of `setCmd` -/

/-- The `for` loop of `setCmd`:
`for dir := ...; dir != node && dir != "" && dir != "/"; dir, _ = path.Split(p) { p = strings.TrimRight(dir, "/") }`.
The state is `(p, dir)`; `none` when the fuel runs out before the condition fails. -/
def patternLoop (node : GoString) : Nat → GoString → GoString → Option GoString
  | 0, _, _ => none
  | fuel + 1, p, dir =>
    if dir ≠ node ∧ dir ≠ [] ∧ dir ≠ ['/'] then
      let p1 := TrimRight dir ['/']
      patternLoop node fuel p1 (Split p1).1
    else some p

/-- The pattern `setCmd` stores in `keySelector[0]` for a key (lines 188 to 196). -/
def keySelector (fuel : Nat) (key : GoString) : Option pubkeyFilter :=
  let (p, node) := Split key
  match patternLoop node fuel p (TrimRight p ['/']) with
  | none => none
  | some p => some [if p = [] ∨ p = ['/'] then key else p]

/-- `strings.Join(segments, "/")`: the storage key made of the given segments. -/
def joinSegments : List GoString → GoString
  | [] => []
  | [s] => s
  | s :: t :: rest => s ++ '/' :: joinSegments (t :: rest)

/-- A well-formed segment of a storage key: not empty and without a `/`. -/
def Segment (s : GoString) : Prop := s ≠ [] ∧ '/' ∉ s

/-! ## Errors, results and the outside world -/

/-- Go `error` values.  `nilDereference` stands for the run-time panic of a nil pointer
dereference, `promptForever` for `ReadMessage` still calling its prompt function when the
model's fuel is spent; `other` covers every other error value (keyring parsing, terminal
and stream errors), told apart by a code. -/
inductive Err where
  | EOF
  | keyIncorrect
  | unlockFailure
  | invalidArgument
  | nilDereference
  | promptForever
  | other (code : Nat)
  deriving DecidableEq, Repr

/-- The Go result pair `([]byte, error)`; `none` is `nil`. -/
structure Result where
  bytes : Option Bytes
  err : Option Err
  deriving DecidableEq, Repr

/-- An `io.Reader`: the bytes it yields and the error that ends it (`none`: `io.EOF`). -/
structure Reader where
  data : Bytes
  err : Option Err
  deriving DecidableEq, Repr

/-- What one use of the terminal by `filter` yields: `terminal.MakeRaw` fails, or it succeeds
and `ReadPassword` fails, or `ReadPassword` returns a line. -/
inductive TermEvent where
  | rawFails (e : Err)
  | readFails (e : Err)
  | line (pw : GoString)
  deriving DecidableEq, Repr

/-- The state outside the program's values: what the terminal will yield on its next uses
(past the end of the list standard input is at end of file), the private keys decrypted in
place so far (by `ref`), and the prompts printed so far, each with the index in `keys` of
the key it asked for and the key id shown. -/
structure World where
  terminal : List TermEvent
  unlocked : List Nat
  prompts : List (Nat × GoString)
  deriving DecidableEq, Repr

/-- The next use of the terminal. -/
def World.nextEvent (w : World) : TermEvent :=
  w.terminal.head?.getD (TermEvent.readFails Err.EOF)

/-- `unicode.IsSpace`. -/
def isSpace (c : Char) : Bool :=
  [0x09, 0x0a, 0x0b, 0x0c, 0x0d, 0x20, 0x85, 0xa0, 0x1680, 0x2028, 0x2029, 0x202f, 0x205f,
    0x3000].contains c.toNat || (0x2000 ≤ c.toNat && c.toNat ≤ 0x200a)

/-- `strings.TrimSpace`. -/
def TrimSpace (s : GoString) : GoString :=
  (s.dropWhile isSpace).rdropWhile isSpace

/-- The current value of `pk.Encrypted`: set in the keyring and not yet decrypted in place. -/
def PrivateKey.isEncrypted (pk : PrivateKey) (w : World) : Bool :=
  pk.Encrypted && !w.unlocked.contains pk.ref

/-- `(*packet.PrivateKey).Decrypt(passphrase)`: nothing to do for a key that is not
encrypted; otherwise the key is decrypted in place when the passphrase is the right one and
an error is returned when it is not. -/
def PrivateKey.Decrypt (pk : PrivateKey) (passphrase : Bytes) (w : World) : Option Err × World :=
  if !pk.isEncrypted w then (none, w)
  else if passphrase = pk.passphrase then (none, { w with unlocked := pk.ref :: w.unlocked })
  else (some Err.unlockFailure, w)

/-- `openpgp.Key`: the two fields `filter` reads, both pointers that may be nil. -/
structure Key where
  PublicKey : Option PublicKey
  PrivateKey : Option PrivateKey
  deriving DecidableEq, Repr

/-! ## `encoding/secconf/secconf.go`: the passphrase prompt -/

/-- `type filterKeys struct { index int; EntityList openpgp.EntityList }`. -/
structure filterKeys where
  index : Nat
  EntityList : EntityList
  deriving DecidableEq, Repr

/-- The loop `for keyid == ""` of `filter`, run on `keys[fk.index:]` with the value of
`fk.index`: the final `fk.index`, and the key and key id the loop leaves with (`none` when
`fk.index >= len(keys)` makes `filter` return `io.EOF`). -/
def filterScan : List Key → Nat → Nat × Option (Key × GoString)
  | [], index => (index, none)
  | k :: keys, index =>
    match k.PublicKey with
    | none => filterScan keys (index + 1)
    | some pub =>
      if pub.KeyIdShortString ≠ [] then (index + 1, some (k, pub.KeyIdShortString))
      else filterScan keys (index + 1)

/-- `func (fk *filterKeys) filter(keys []openpgp.Key, symmetric bool) ([]byte, error)`,
with the receiver and the world passed through. -/
def filterKeys.filter (fk : filterKeys) (keys : List Key) (symmetric : Bool) (w : World) :
    Result × filterKeys × World :=
  match filterScan (keys.drop fk.index) fk.index with
  | (index, none) => (⟨none, some Err.EOF⟩, { fk with index := index }, w)
  | (index, some (k, keyid)) =>
    let fk1 : filterKeys := { fk with index := index }
    match w.nextEvent with
    | TermEvent.rawFails err => (⟨none, some err⟩, fk1, { w with terminal := w.terminal.tail })
    | TermEvent.readFails err =>
      (⟨none, some err⟩, fk1,
        { w with terminal := w.terminal.tail, prompts := w.prompts ++ [(index - 1, keyid)] })
    | TermEvent.line pw =>
      let w1 : World :=
        { w with terminal := w.terminal.tail, prompts := w.prompts ++ [(index - 1, keyid)] }
      if symmetric then (⟨some (TrimSpace pw), none⟩, fk1, w1)
      else
        match k.PrivateKey with
        | none => (⟨none, some Err.nilDereference⟩, fk1, w1)
        | some priv =>
          if priv.isEncrypted w1 then
            match priv.Decrypt (TrimSpace pw) w1 with
            | (some err, w2) => (⟨none, some err⟩, fk1, w2)
            | (none, w2) => (⟨none, none⟩, fk1, w2)
          else (⟨none, none⟩, fk1, w1)

/-! ## The library calls of the codec -/

/-- What a prompt function carries from call to call: its receiver and the world. -/
abbrev PromptState := filterKeys × World

/-- `openpgp.PromptFunction`. -/
abbrev PromptFunction := List Key → Bool → PromptState → Result × PromptState

/-- `(&filterKeys{...}).filter` as a prompt function. -/
def filterPrompt : PromptFunction := fun keys symmetric s =>
  let r := s.1.filter keys symmetric s.2
  (r.1, r.2.1, r.2.2)

/-- The library functions `encode` and `Decode` call, as parameters.
`Encrypt recipients` is the error of `openpgp.Encrypt`, or the OpenPGP message its writer
emits for the data written to it; `gzip` is the stream a `gzip.Writer` emits; `gzWrite`,
`gzClose`, `pgpClose` and `base64Close` are the errors of the writes and closes;
`base64Decode` is the reader `base64.NewDecoder` makes of the data; `ReadMessage` returns
the error of `openpgp.ReadMessage` or the reader `md.UnverifiedBody`. -/
structure Lib where
  ReadKeyRing : Bytes → Except Err EntityList
  Encrypt : EntityList → Except Err (Bytes → Bytes)
  gzip : Bytes → Bytes
  gzWrite : Bytes → Option Err
  gzClose : Bytes → Option Err
  pgpClose : EntityList → Bytes → Option Err
  base64Encode : Bytes → Bytes
  base64Close : Bytes → Option Err
  base64Decode : Bytes → Reader
  ReadMessage : Reader → EntityList → PromptFunction → PromptState → Except Err Reader × PromptState
  gzipNewReader : Reader → Except Err Reader

/-- `ioutil.ReadAll`: the bytes read and the error that stopped the reading, if any. -/
def ReadAll (r : Reader) : Bytes × Option Err := (r.data, r.err)

/-! ## `encoding/secconf/secconf.go`: the codec -/

/-- `func encode(data []byte, entityList openpgp.EntityList) ([]byte, error)`. -/
def encode (L : Lib) (data : Bytes) (entityList : EntityList) : Result :=
  match L.Encrypt entityList with
  | .error err => ⟨none, some err⟩
  | .ok pgpWriter =>
    match L.gzWrite data with
    | some err => ⟨none, some err⟩
    | none =>
      match L.gzClose data with
      | some err => ⟨none, some err⟩
      | none =>
        match L.pgpClose entityList data with
        | some err => ⟨none, some err⟩
        | none =>
          match L.base64Close data with
          | some err => ⟨none, some err⟩
          | none => ⟨some (L.base64Encode (pgpWriter (L.gzip data))), none⟩

/-- `func Encode(data []byte, keyring io.Reader) ([]byte, error)`. -/
def Encode (L : Lib) (data : Bytes) (keyring : Bytes) : Result :=
  match L.ReadKeyRing keyring with
  | .error err => ⟨none, some err⟩
  | .ok entityList => encode L data entityList

/-- `func EncodeWith(data []byte, keyring io.Reader, f EntityFilter) ([]byte, error)`;
`f` is the `Entities` method of the filter. -/
def EncodeWith (L : Lib) (data : Bytes) (keyring : Bytes) (f : EntityList → EntityList) : Result :=
  match L.ReadKeyRing keyring with
  | .error err => ⟨none, some err⟩
  | .ok entityList => encode L data (f entityList)

/-- `func Decode(data []byte, secertKeyring io.Reader) ([]byte, error)`, with the world
passed through. -/
def Decode (L : Lib) (data : Bytes) (secertKeyring : Bytes) (w : World) : Result × World :=
  let decoder := L.base64Decode data
  match L.ReadKeyRing secertKeyring with
  | .error err => (⟨none, some err⟩, w)
  | .ok entityList =>
    match L.ReadMessage decoder entityList filterPrompt
        ({ index := 0, EntityList := entityList }, w) with
    | (.error err, s) => (⟨none, some err⟩, s.2)
    | (.ok UnverifiedBody, s) =>
      match L.gzipNewReader UnverifiedBody with
      | .error err => (⟨none, some err⟩, s.2)
      | .ok gzReader =>
        match ReadAll gzReader with
        | (_, some err) => (⟨none, some err⟩, s.2)
        | (bytes, none) => (⟨some bytes, none⟩, s.2)

/-! ## A model of the OpenPGP library's key handling

`openpgp.Encrypt` and `openpgp.ReadMessage` belong to `golang.org/x/crypto/openpgp`, a
library the program imports; its source is no part of the repository.  The model below
follows the control flow of the two functions with the cryptography idealised: a message
names the key ids it is encrypted to, and a private key that is not encrypted opens every
message encrypted to its key id.  The packet framing, gzip and base64 stay parameters.
Theorems stated for every `Lib` do not depend on this model. -/

/-- A parsed OpenPGP message: whether it is encrypted at all, the key ids of its
`EncryptedKey` packets, its `SymmetricKeyEncrypted` packets (each given by the passphrase
that opens it) and the stream of its literal data. -/
structure Message where
  IsEncrypted : Bool
  EncryptedToKeyIds : List Nat
  symKeys : List Bytes
  body : Reader
  deriving DecidableEq, Repr

/-- The parts of the libraries the model leaves open.  `encryptError` is the error
`openpgp.Encrypt` returns for a list of recipients on grounds the model does not follow
(no recipient at all, in `golang.org/x/crypto` from 2018-08 on; no cipher or hash common
to the recipients; a failing source of randomness), `none` when there is no such ground. -/
structure Codec where
  ReadKeyRing : Bytes → Except Err EntityList
  encryptError : EntityList → Option Err
  serialize : List Nat → Bytes → Bytes
  parse : Reader → Except Err Message
  gzip : Bytes → Bytes
  gzWrite : Bytes → Option Err
  gzClose : Bytes → Option Err
  pgpClose : EntityList → Bytes → Option Err
  base64Encode : Bytes → Bytes
  base64Close : Bytes → Option Err
  base64Decode : Bytes → Reader
  gzipNewReader : Reader → Except Err Reader

/-- The `openpgp.Key` of an entity (its primary key). -/
def Entity.key (e : Entity) : Key := ⟨some e.PrimaryKey, e.PrivateKey⟩

/-- `EntityList.KeysById(id)`. -/
def KeysById (keyring : EntityList) (id : Nat) : List Key :=
  (keyring.filter (fun e => e.PrimaryKey.KeyId == id)).map Entity.key

/-- `openpgp.Encrypt`: the error `encryptError` gives, if any; an `InvalidArgumentError`
when a recipient has no encryption key; otherwise one `EncryptedKey` packet per recipient,
then the encrypted data.  Whether an empty list of recipients is an error is left to
`encryptError`: the library accepted it before 2018-08 and rejects it since. -/
def EncryptModel (C : Codec) (recipients : EntityList) : Except Err (Bytes → Bytes) :=
  match C.encryptError recipients with
  | some err => .error err
  | none =>
    if recipients.all (fun e => e.hasEncryptionKey) then
      .ok (fun literal => C.serialize (recipients.map (fun e => e.PrimaryKey.KeyId)) literal)
    else .error Err.invalidArgument

/-- One pass of `ReadMessage` over `pubKeys`: the first key whose private key is not
encrypted decrypts the message; the encrypted ones are collected as candidates, one per
public key. -/
def scanPubKeys (w : World) : List Key → List Key → Option Key × List Key
  | [], candidates => (none, candidates)
  | k :: pubKeys, candidates =>
    match k.PrivateKey with
    | none => scanPubKeys w pubKeys candidates
    | some priv =>
      if !priv.isEncrypted w then (some k, candidates)
      else if candidates.any (fun c => c.PublicKey = k.PublicKey) then
        scanPubKeys w pubKeys candidates
      else scanPubKeys w pubKeys (candidates ++ [k])

/-- The loop `FindKey` of `ReadMessage`: decrypt with a key that is not encrypted, or else
call `prompt` with the candidates; an error of `prompt` is passed up, and after a call
without error the loop starts over. -/
def FindKey (m : Message) (pubKeys : List Key) (prompt : PromptFunction) :
    Nat → PromptState → Except Err Unit × PromptState
  | 0, s => (.error Err.promptForever, s)
  | fuel + 1, s =>
    match scanPubKeys s.2 pubKeys [] with
    | (some _, _) => (.ok (), s)
    | (none, candidates) =>
      if candidates.isEmpty && m.symKeys.isEmpty then (.error Err.keyIncorrect, s)
      else
        match prompt candidates (!m.symKeys.isEmpty) s with
        | (⟨_, some err⟩, s1) => (.error err, s1)
        | (⟨passphrase, none⟩, s1) =>
          if m.symKeys.any (fun sk => passphrase = some sk) then (.ok (), s1)
          else FindKey m pubKeys prompt fuel s1

/-- `openpgp.ReadMessage(r, keyring, prompt, nil)`, returning `md.UnverifiedBody`. -/
def ReadMessageModel (C : Codec) (fuel : Nat) (r : Reader) (keyring : EntityList)
    (prompt : PromptFunction) (s : PromptState) : Except Err Reader × PromptState :=
  match C.parse r with
  | .error err => (.error err, s)
  | .ok m =>
    if !m.IsEncrypted then (.ok m.body, s)
    else
      match FindKey m (m.EncryptedToKeyIds.flatMap (KeysById keyring)) prompt fuel s with
      | (.error err, s1) => (.error err, s1)
      | (.ok _, s1) => (.ok m.body, s1)

/-- The library with the OpenPGP key handling of the model. -/
def openpgpModel (C : Codec) (fuel : Nat) : Lib where
  ReadKeyRing := C.ReadKeyRing
  Encrypt := EncryptModel C
  gzip := C.gzip
  gzWrite := C.gzWrite
  gzClose := C.gzClose
  pgpClose := C.pgpClose
  base64Encode := C.base64Encode
  base64Close := C.base64Close
  base64Decode := C.base64Decode
  ReadMessage := ReadMessageModel C fuel
  gzipNewReader := C.gzipNewReader

/-! ## Usable private keys -/

/-- The secret keyring holds, for some recipient in `R`, a private key that is not
encrypted. -/
def HoldsUnlockedKey (R secret : EntityList) (w : World) : Prop :=
  ∃ e ∈ R, ∃ s ∈ secret, s.PrimaryKey.KeyId = e.PrimaryKey.KeyId ∧
    ∃ priv, s.PrivateKey = some priv ∧ priv.isEncrypted w = false

/-- Every private key the secret keyring holds for the recipients in `R` is encrypted, and
the line read at the prompt is, blanks apart, the passphrase of the key the prompt chose:
`ReadMessage` finds no key to decrypt with and collects `candidates`, `filter` leaves its
loop with the candidate `k`, and the terminal yields the passphrase of `k`. -/
def PromptUnlocksChosenKey (R secret : EntityList) (w : World) : Prop :=
  ∃ candidates index k keyid pw,
    scanPubKeys w ((R.map (fun e => e.PrimaryKey.KeyId)).flatMap (KeysById secret)) []
      = (none, candidates) ∧
    filterScan candidates 0 = (index, some (k, keyid)) ∧
    w.nextEvent = TermEvent.line pw ∧
    ∀ priv, k.PrivateKey = some priv → TrimSpace pw = priv.passphrase

/-! ## Sequences of calls of `filter` -/

/-- A key `filter` can prompt for: it has a public key whose short key id is not empty. -/
def Key.promptable (k : Key) : Bool :=
  match k.PublicKey with
  | none => false
  | some pub => decide (pub.KeyIdShortString ≠ [])

/-- The index in `keys` of the key a call of `filter` leaves its loop with, if any. -/
def filterKeys.chosen (fk : filterKeys) (keys : List Key) : Option Nat :=
  match filterScan (keys.drop fk.index) fk.index with
  | (index, some _) => some (index - 1)
  | (_, none) => none

/-- One call of `filter` in a sequence: the index of the key it chose, what it returned,
and the world before and after it. -/
structure Call where
  chosen : Option Nat
  result : Result
  before : World
  after : World
  deriving DecidableEq, Repr

/-- Successive calls of `filter` on one receiver with one list of keys: each entry of
`calls` gives the argument `symmetric` of a call and the world the call is made in. -/
def filterCalls (keys : List Key) : List (Bool × World) → filterKeys → List Call × filterKeys
  | [], fk => ([], fk)
  | (symmetric, w) :: calls, fk =>
    let r := fk.filter keys symmetric w
    let rest := filterCalls keys calls r.2.1
    (⟨fk.chosen keys, r.1, w, r.2.2⟩ :: rest.1, rest.2)

/-- The same entity with its identities iterated in another order. -/
def Entity.Reordered (e e' : Entity) : Prop :=
  e'.Identities.Perm e.Identities ∧ e'.PrimaryKey = e.PrimaryKey ∧
    e'.PrivateKey = e.PrivateKey ∧ e'.hasEncryptionKey = e.hasEncryptionKey

/-! ## Example data -/

/-- A public-keyring entity with the given identity names and key id. -/
def publicEntity (names : List String) (keyId : Nat) (shortId : String) : Entity :=
  ⟨names.map (fun n => ⟨n.toList⟩), ⟨keyId, shortId.toList⟩, none, true⟩

/-- The first entity of the specification's scenario. -/
def alice : Entity := publicEntity ["alice@ops"] 1 "0000000A"

/-- The second entity of the scenario. -/
def bob : Entity := publicEntity ["bob@dev"] 2 "0000000B"

/-- A further entity whose identity also contains `ops`. -/
def carol : Entity := publicEntity ["carol@ops"] 3 "0000000C"

/-- The entity with a private key protected by `passphrase` (encrypted in the keyring when
`locked`). -/
def Entity.withPrivateKey (e : Entity) (ref : Nat) (locked : Bool) (passphrase : String) :
    Entity :=
  { e with PrivateKey := some ⟨ref, locked, passphrase.toList⟩ }

/-- An instance of the open parts for the examples: the keyring sources `pub` and `sec`
stand for two given keyrings, a message is framed as its key ids, a `;` and the literal
data, gzip puts a `z` in front, base64 reverses its input, no write or close fails, and
`Encrypt` has no further ground of error (it accepts an empty list of recipients, as the
library did before 2018-08). -/
def exampleCodec (pub sec : EntityList) : Codec where
  ReadKeyRing := fun src =>
    if src = "pub".toList then .ok pub
    else if src = "sec".toList then .ok sec
    else .error (Err.other 1)
  encryptError := fun _ => none
  serialize := fun ids literal => ids.map Char.ofNat ++ ';' :: literal
  parse := fun r =>
    match r.err with
    | some err => .error err
    | none =>
      match r.data.dropWhile (fun c => c ≠ ';') with
      | [] => .error (Err.other 2)
      | _ :: literal =>
        .ok ⟨true, (r.data.takeWhile (fun c => c ≠ ';')).map Char.toNat, [], ⟨literal, none⟩⟩
  gzip := fun data => 'z' :: data
  gzWrite := fun _ => none
  gzClose := fun _ => none
  pgpClose := fun _ _ => none
  base64Encode := fun x => x.reverse
  base64Close := fun _ => none
  base64Decode := fun x => ⟨x.reverse, none⟩
  gzipNewReader := fun r =>
    match r.data with
    | 'z' :: data => .ok ⟨data, r.err⟩
    | _ => .error (Err.other 3)

/-- The example library: the public keyring holds alice and bob, the secret keyring their
keys, both encrypted, with passphrases `pw-a` and `pw-b`. -/
def exampleLib : Lib :=
  openpgpModel
    (exampleCodec [alice, bob]
      [alice.withPrivateKey 10 true "pw-a", bob.withPrivateKey 11 true "pw-b"]) 3

/-- The example library with an `Encrypt` that rejects an empty list of recipients, as the
library does from 2018-08 on. -/
def exampleLibStrict : Lib :=
  openpgpModel
    { exampleCodec [alice, bob]
        [alice.withPrivateKey 10 true "pw-a", bob.withPrivateKey 11 true "pw-b"] with
      encryptError := fun recipients =>
        if recipients.isEmpty then some Err.invalidArgument else none } 3

/-- A world whose terminal yields the given lines, with no key decrypted and no prompt
printed yet. -/
def typing (lines : List String) : World :=
  ⟨lines.map (fun l => TermEvent.line l.toList), [], []⟩

/-! ## The selector: supporting lemmas -/

theorem HasPrefix_iff (s p : GoString) : HasPrefix s p = true ↔ p <+: s := by
  induction s generalizing p with
  | nil => cases p <;> simp [HasPrefix]
  | cons c s ih =>
    cases p with
    | nil => simp [HasPrefix]
    | cons d p =>
      simp only [HasPrefix, Bool.and_eq_true, beq_iff_eq, ih, List.cons_prefix_cons]
      constructor
      · rintro ⟨h, h2⟩; exact ⟨h.symm, h2⟩
      · rintro ⟨h, h2⟩; exact ⟨h.symm, h2⟩

theorem Contains_iff (s substr : GoString) : Contains s substr = true ↔ substr <:+: s := by
  induction s with
  | nil =>
    simp only [Contains, HasPrefix_iff, List.prefix_nil, List.infix_nil]
  | cons c s ih =>
    simp only [Contains, Bool.or_eq_true, HasPrefix_iff, ih, List.infix_cons_iff]

theorem matchPatterns_iff (name : GoString) (pk : pubkeyFilter) :
    matchPatterns name pk = true ↔ ∃ k ∈ pk, k <:+: name := by
  induction pk with
  | nil => simp [matchPatterns]
  | cons k pk ih =>
    by_cases h : Contains name k = true
    · simp [matchPatterns, h, (Contains_iff name k).mp h]
    · have h2 : ¬ k <:+: name := fun hh => h ((Contains_iff name k).mpr hh)
      simp [matchPatterns, h, h2, ih]

theorem matchIdentities_iff (pk : pubkeyFilter) (ids : List Identity) :
    matchIdentities pk ids = true ↔ ∃ id ∈ ids, ∃ k ∈ pk, k <:+: id.Name := by
  induction ids with
  | nil => simp [matchIdentities]
  | cons id ids ih =>
    by_cases h : matchPatterns id.Name pk = true
    · have h2 := (matchPatterns_iff id.Name pk).mp h
      simp only [matchIdentities, h, if_true, List.mem_cons, true_iff]
      exact ⟨id, Or.inl rfl, h2⟩
    · have h2 : ¬ ∃ k ∈ pk, k <:+: id.Name := fun hh => h ((matchPatterns_iff id.Name pk).mpr hh)
      rw [matchIdentities, if_neg h, ih]
      simp only [List.mem_cons]
      constructor
      · rintro ⟨i, hi, hk⟩; exact ⟨i, Or.inr hi, hk⟩
      · rintro ⟨i, hi | hi, hk⟩
        · subst hi; exact absurd hk h2
        · exact ⟨i, hi, hk⟩

theorem matchIdentities_iff_Selected (pk : pubkeyFilter) (e : Entity) :
    matchIdentities pk e.Identities = true ↔ Selected pk e :=
  matchIdentities_iff pk e.Identities

theorem entityFilterLoop_eq (pk : pubkeyFilter) (ents : List Entity) (el : EntityList) :
    entityFilterLoop pk ents el
      = el ++ (ents.find? (fun e => matchIdentities pk e.Identities)).toList := by
  induction ents with
  | nil => simp [entityFilterLoop]
  | cons e ents ih =>
    by_cases h : matchIdentities pk e.Identities = true
    · simp [entityFilterLoop, h]
    · simp [entityFilterLoop, h, ih]

theorem Entities_eq_find (pk : pubkeyFilter) (ents : List Entity) :
    pk.Entities ents = (ents.find? (fun e => decide (Selected pk e))).toList := by
  have : (fun e => matchIdentities pk e.Identities) = (fun e : Entity => decide (Selected pk e)) := by
    funext e
    by_cases h : matchIdentities pk e.Identities = true
    · simp [h, (matchIdentities_iff_Selected pk e).mp h]
    · have h2 : ¬ Selected pk e := fun hh => h ((matchIdentities_iff_Selected pk e).mpr hh)
      simp [h, h2]
  simp [pubkeyFilter.Entities, entityFilterLoop_eq, this]

theorem Selected_congr (pk pk' : pubkeyFilter) (e e' : Entity) (hp : pk'.Perm pk)
    (he : e.Reordered e') : Selected pk e ↔ Selected pk' e' := by
  unfold Selected
  constructor
  · rintro ⟨id, hid, k, hk, h⟩
    exact ⟨id, he.1.mem_iff.mpr hid, k, hp.mem_iff.mpr hk, h⟩
  · rintro ⟨id, hid, k, hk, h⟩
    exact ⟨id, he.1.mem_iff.mp hid, k, hp.mem_iff.mp hk, h⟩

theorem Entities_cons (pk : pubkeyFilter) (e : Entity) (ents : List Entity) :
    pk.Entities (e :: ents) = if Selected pk e then [e] else pk.Entities ents := by
  by_cases h : Selected pk e
  · simp [pubkeyFilter.Entities, entityFilterLoop, (matchIdentities_iff_Selected pk e).mpr h, h]
  · have h2 : ¬ matchIdentities pk e.Identities = true :=
      fun hh => h ((matchIdentities_iff_Selected pk e).mp hh)
    simp [pubkeyFilter.Entities, entityFilterLoop, h2, h]

theorem Entities_nil (pk : pubkeyFilter) : pk.Entities [] = [] := rfl

theorem Entities_of_none (pk : pubkeyFilter) (ents : List Entity)
    (h : ∀ e ∈ ents, ¬ Selected pk e) : pk.Entities ents = [] := by
  induction ents with
  | nil => rfl
  | cons e ents ih =>
    rw [Entities_cons, if_neg (h e (by simp))]
    exact ih (fun x hx => h x (by simp [hx]))

theorem Entities_of_first (pk : pubkeyFilter) (pre : List Entity) (e : Entity)
    (post : List Entity) (hpre : ∀ x ∈ pre, ¬ Selected pk x) (he : Selected pk e) :
    pk.Entities (pre ++ e :: post) = [e] := by
  induction pre with
  | nil => rw [List.nil_append, Entities_cons, if_pos he]
  | cons x pre ih =>
    rw [List.cons_append, Entities_cons, if_neg (hpre x (by simp))]
    exact ih (fun y hy => hpre y (by simp [hy]))

theorem Entities_length_le (pk : pubkeyFilter) (ents : List Entity) :
    (pk.Entities ents).length ≤ 1 := by
  induction ents with
  | nil => simp [Entities_nil]
  | cons e ents ih =>
    rw [Entities_cons]
    split
    · simp
    · exact ih

theorem Entities_mem (pk : pubkeyFilter) (ents : List Entity) (e : Entity)
    (h : e ∈ pk.Entities ents) : e ∈ ents ∧ Selected pk e := by
  induction ents with
  | nil => simp [Entities_nil] at h
  | cons x ents ih =>
    rw [Entities_cons] at h
    by_cases hx : Selected pk x
    · rw [if_pos hx] at h
      have e1 : e = x := by simpa using h
      subst e1
      exact ⟨by simp, hx⟩
    · rw [if_neg hx] at h
      obtain ⟨h1, h2⟩ := ih h
      exact ⟨by simp [h1], h2⟩

theorem Entities_reordered (pk pk' : pubkeyFilter) (ents ents' : List Entity)
    (hp : pk'.Perm pk) (he : List.Forall₂ Entity.Reordered ents ents') :
    List.Forall₂ Entity.Reordered (pk.Entities ents) (pk'.Entities ents') := by
  induction he with
  | nil => simp [Entities_nil]
  | @cons a b l1 l2 hab _ ih =>
    rw [Entities_cons, Entities_cons]
    by_cases h : Selected pk a
    · rw [if_pos h, if_pos ((Selected_congr pk pk' a b hp hab).mp h)]
      exact List.Forall₂.cons hab List.Forall₂.nil
    · rw [if_neg h, if_neg (fun hh => h ((Selected_congr pk pk' a b hp hab).mpr hh))]
      exact ih

/-! ## Paths: supporting lemmas -/

theorem LastIndexSlash_of_not_mem (b : GoString) (h : '/' ∉ b) : LastIndexSlash b = -1 := by
  induction b with
  | nil => rfl
  | cons c b ih =>
    have hc : c ≠ '/' := fun e => h (by simp [e])
    have hb : '/' ∉ b := fun e => h (by simp [e])
    simp [LastIndexSlash, ih hb, hc]

theorem LastIndexSlash_append_slash (a b : GoString) (h : '/' ∉ b) :
    LastIndexSlash (a ++ '/' :: b) = a.length := by
  induction a with
  | nil => simp [LastIndexSlash, LastIndexSlash_of_not_mem b h]
  | cons c a ih =>
    have h0 : (0 : Int) ≤ (a.length : Int) := Int.ofNat_nonneg _
    show (if 0 ≤ LastIndexSlash (a ++ '/' :: b) then LastIndexSlash (a ++ '/' :: b) + 1
      else if c = '/' then 0 else -1) = ((a.length + 1 : Nat) : Int)
    rw [ih, if_pos h0]
    push_cast
    rfl

theorem Split_of_not_mem (b : GoString) (h : '/' ∉ b) : Split b = ([], b) := by
  simp [Split, LastIndexSlash_of_not_mem b h]

theorem Split_append_slash (a b : GoString) (h : '/' ∉ b) :
    Split (a ++ '/' :: b) = (a ++ ['/'], b) := by
  have e : ((a.length : Int) + 1).toNat = a.length + 1 := by omega
  simp only [Split, LastIndexSlash_append_slash a b h, e]
  have e2 : a ++ '/' :: b = (a ++ ['/']) ++ b := by simp
  have hl : (a ++ ['/']).length = a.length + 1 := by simp
  rw [e2, ← hl, List.take_left, List.drop_left]

theorem slash_decomp (s : GoString) :
    '/' ∉ s ∨ ∃ a b, s = a ++ '/' :: b ∧ '/' ∉ b := by
  induction s with
  | nil => left; simp
  | cons c s ih =>
    rcases ih with h | ⟨a, b, hs, hb⟩
    · by_cases hc : c = '/'
      · right; exact ⟨[], s, by simp [hc], h⟩
      · left
        simp only [List.mem_cons, not_or]
        exact ⟨fun e => hc e.symm, h⟩
    · right; exact ⟨c :: a, b, by simp [hs], hb⟩

theorem Split_fst_isPre (p : GoString) : (Split p).1 <+: p := by
  simp only [Split]; exact List.take_prefix _ _

theorem Split_fst_nil_or_slash (p : GoString) :
    (Split p).1 = [] ∨ ∃ a, (Split p).1 = a ++ ['/'] := by
  rcases slash_decomp p with h | ⟨a, b, hs, hb⟩
  · left; rw [Split_of_not_mem p h]
  · right; exact ⟨a, by rw [hs, Split_append_slash a b hb]⟩

theorem TrimRight_isPre (s c : GoString) : TrimRight s c <+: s :=
  List.rdropWhile_prefix _ _

theorem TrimRight_ne_concat_slash (s a : GoString) : TrimRight s ['/'] ≠ a ++ ['/'] := by
  intro h
  have hne : List.rdropWhile (fun c => (['/'] : GoString).contains c) s ≠ [] := by
    have : TrimRight s ['/'] ≠ [] := by rw [h]; simp
    exact this
  have key : ∀ (l : GoString) (hl : l ≠ []), l = a ++ ['/'] → l.getLast hl = '/' := by
    intro l hl e
    subst e
    simp
  have hlast := List.rdropWhile_last_not (fun c => (['/'] : GoString).contains c) s hne
  apply hlast
  rw [key _ hne h]
  decide

theorem Split_TrimRight_length_lt (dir : GoString) (h : dir ≠ []) :
    (Split (TrimRight dir ['/'])).1.length < dir.length := by
  have h1 : (TrimRight dir ['/']).length ≤ dir.length := (TrimRight_isPre dir ['/']).length_le
  have h2 := (Split_fst_isPre (TrimRight dir ['/']))
  rcases Split_fst_nil_or_slash (TrimRight dir ['/']) with e | ⟨a, e⟩
  · rw [e]; exact List.length_pos.mpr h
  · have hne : (Split (TrimRight dir ['/'])).1 ≠ TrimRight dir ['/'] := by
      rw [e]; exact fun hh => TrimRight_ne_concat_slash dir a hh.symm
    have hlt : (Split (TrimRight dir ['/'])).1.length < (TrimRight dir ['/']).length := by
      rcases Nat.lt_or_ge (Split (TrimRight dir ['/'])).1.length (TrimRight dir ['/']).length
        with hl | hl
      · exact hl
      · exact absurd (h2.eq_of_length (Nat.le_antisymm h2.length_le hl)) hne
    omega

theorem patternLoop_fuel_mono (node : GoString) :
    ∀ (fuel : Nat) (p dir r : GoString), patternLoop node fuel p dir = some r →
      ∀ k, patternLoop node (fuel + k) p dir = some r := by
  intro fuel
  induction fuel with
  | zero => intro p dir r h; simp [patternLoop] at h
  | succ n ih =>
    intro p dir r h k
    have e : n + 1 + k = (n + k) + 1 := by omega
    rw [e]
    by_cases hc : dir ≠ node ∧ dir ≠ [] ∧ dir ≠ ['/']
    · rw [patternLoop, if_pos hc] at h
      rw [patternLoop, if_pos hc]
      exact ih _ _ _ h k
    · rw [patternLoop, if_neg hc] at h
      rw [patternLoop, if_neg hc]
      exact h

theorem patternLoop_returns (node key : GoString) :
    ∀ (fuel : Nat) (p dir : GoString), dir.length < fuel → p <+: key → dir <+: key →
      ∃ r, patternLoop node fuel p dir = some r ∧ r <+: key := by
  intro fuel
  induction fuel with
  | zero => intro p dir h; omega
  | succ n ih =>
    intro p dir hlen hp hdir
    by_cases hc : dir ≠ node ∧ dir ≠ [] ∧ dir ≠ ['/']
    · rw [patternLoop, if_pos hc]
      have hp1 : TrimRight dir ['/'] <+: key := (TrimRight_isPre dir ['/']).trans hdir
      have hd1 : (Split (TrimRight dir ['/'])).1 <+: key :=
        (Split_fst_isPre _).trans hp1
      have hlt := Split_TrimRight_length_lt dir hc.2.1
      exact ih _ _ (by omega) hp1 hd1
    · rw [patternLoop, if_neg hc]
      exact ⟨p, rfl, hp⟩

theorem keySelector_returns (key : GoString) (hkey : key ≠ []) :
    ∃ p, (∀ fuel, key.length < fuel → keySelector fuel key = some [p]) ∧ p ≠ [] ∧ p <+: key := by
  have hp : (Split key).1 <+: key := Split_fst_isPre key
  have hd : TrimRight (Split key).1 ['/'] <+: key := (TrimRight_isPre _ _).trans hp
  obtain ⟨r, hr, hrk⟩ := patternLoop_returns (Split key).2 key (key.length + 1) (Split key).1
    (TrimRight (Split key).1 ['/']) (by have := hd.length_le; omega) hp hd
  refine ⟨if r = [] ∨ r = ['/'] then key else r, ?_, ?_, ?_⟩
  · intro fuel hf
    obtain ⟨k, rfl⟩ : ∃ k, fuel = key.length + 1 + k := ⟨fuel - (key.length + 1), by omega⟩
    have := patternLoop_fuel_mono _ _ _ _ _ hr k
    simp only [keySelector, this]
  · by_cases h : r = [] ∨ r = ['/']
    · rw [if_pos h]; exact hkey
    · rw [if_neg h]; exact fun e => h (Or.inl e)
  · by_cases h : r = [] ∨ r = ['/']
    · rw [if_pos h]
    · rw [if_neg h]; exact hrk

/-! ## The passphrase prompt: supporting lemmas -/

theorem filterScan_none (l : List Key) (i j : Nat) (h : filterScan l i = (j, none)) :
    j = i + l.length ∧ ∀ k ∈ l, k.promptable = false := by
  induction l generalizing i with
  | nil => simp [filterScan] at h; simp [h]
  | cons k l ih =>
    rw [filterScan] at h
    cases hp : k.PublicKey with
    | none =>
      rw [hp] at h
      obtain ⟨h1, h2⟩ := ih (i + 1) h
      refine ⟨by simp [h1]; omega, ?_⟩
      intro x hx
      rcases List.mem_cons.mp hx with e | e
      · subst e; simp [Key.promptable, hp]
      · exact h2 x e
    | some pub =>
      rw [hp] at h
      by_cases hid : pub.KeyIdShortString ≠ []
      · simp [hid] at h
      · simp only [hid, if_false] at h
        obtain ⟨h1, h2⟩ := ih (i + 1) h
        refine ⟨by simp [h1]; omega, ?_⟩
        intro x hx
        rcases List.mem_cons.mp hx with e | e
        · subst e; simpa [Key.promptable, hp] using hid
        · exact h2 x e

theorem filterScan_some (l : List Key) (i j : Nat) (k : Key) (keyid : GoString)
    (h : filterScan l i = (j, some (k, keyid))) :
    i < j ∧ j ≤ i + l.length ∧ l[j - 1 - i]? = some k ∧ k.promptable = true ∧
      (∀ n, n < j - 1 - i → ∀ x, l[n]? = some x → x.promptable = false) ∧
      (∃ pub, k.PublicKey = some pub ∧ pub.KeyIdShortString = keyid) := by
  induction l generalizing i with
  | nil => simp [filterScan] at h
  | cons x l ih =>
    rw [filterScan] at h
    have step : filterScan l (i + 1) = (j, some (k, keyid)) → x.promptable = false →
        i < j ∧ j ≤ i + (x :: l).length ∧ (x :: l)[j - 1 - i]? = some k ∧ k.promptable = true ∧
        (∀ n, n < j - 1 - i → ∀ y, (x :: l)[n]? = some y → y.promptable = false) ∧
        (∃ pub, k.PublicKey = some pub ∧ pub.KeyIdShortString = keyid) := by
      intro h' hx
      obtain ⟨h1, h2, h3, h4, h5, h6⟩ := ih (i + 1) h'
      have e : j - 1 - i = (j - 1 - (i + 1)) + 1 := by omega
      refine ⟨by omega, by simp; omega, ?_, h4, ?_, h6⟩
      · rw [e, List.getElem?_cons_succ]; exact h3
      · intro n hn y hy
        cases n with
        | zero => simp at hy; subst hy; exact hx
        | succ n =>
          rw [List.getElem?_cons_succ] at hy
          exact h5 n (by omega) y hy
    cases hp : x.PublicKey with
    | none =>
      rw [hp] at h
      exact step h (by simp [Key.promptable, hp])
    | some pub =>
      rw [hp] at h
      by_cases hid : pub.KeyIdShortString ≠ []
      · simp only [hid, if_true, ne_eq, not_false_eq_true, Prod.mk.injEq, Option.some.injEq] at h
        obtain ⟨h1, h2, h3⟩ := h
        subst h1 h2 h3
        refine ⟨by omega, by simp, by simp, by simp [Key.promptable, hp, hid], ?_, ⟨pub, hp, rfl⟩⟩
        intro n hn; omega
      · simp only [hid, if_false] at h
        exact step h (by simpa [Key.promptable, hp] using hid)

theorem Decrypt_prompts (priv : PrivateKey) (pw : Bytes) (w : World) :
    (priv.Decrypt pw w).2.prompts = w.prompts ∧ (priv.Decrypt pw w).2.terminal = w.terminal := by
  unfold PrivateKey.Decrypt
  split
  · exact ⟨rfl, rfl⟩
  · split <;> exact ⟨rfl, rfl⟩

theorem chosen_none_of_le (fk : filterKeys) (keys : List Key) (h : keys.length ≤ fk.index) :
    fk.chosen keys = none := by
  simp [filterKeys.chosen, List.drop_eq_nil_of_le h, filterScan]

/-- What one call of `filter` does, by the key it chooses. -/
theorem filter_call (fk : filterKeys) (keys : List Key) (symmetric : Bool) (w : World) :
    (fk.chosen keys = none ∧ keys.length ≤ (fk.filter keys symmetric w).2.1.index ∧
        fk.index ≤ (fk.filter keys symmetric w).2.1.index ∧
        (fk.filter keys symmetric w).1 = ⟨none, some Err.EOF⟩ ∧
        (fk.filter keys symmetric w).2.2 = w) ∨
    (∃ i k keyid, fk.chosen keys = some i ∧ fk.index ≤ i ∧ i < keys.length ∧
        keys[i]? = some k ∧ k.promptable = true ∧
        (∀ n, fk.index ≤ n → n < i → ∀ x, keys[n]? = some x → x.promptable = false) ∧
        (fk.filter keys symmetric w).2.1.index = i + 1 ∧
        ((fk.filter keys symmetric w).2.2.prompts = w.prompts ∨
          (fk.filter keys symmetric w).2.2.prompts = w.prompts ++ [(i, keyid)])) := by
  rcases hs : filterScan (keys.drop fk.index) fk.index with ⟨j, _ | ⟨k, keyid⟩⟩
  · left
    obtain ⟨h1, _⟩ := filterScan_none _ _ _ hs
    have hlen : (keys.drop fk.index).length = keys.length - fk.index := List.length_drop _ _
    simp only [filterKeys.chosen, filterKeys.filter, hs]
    refine ⟨trivial, ?_, ?_, trivial, trivial⟩ <;> simp only [h1, hlen] <;> omega
  · right
    obtain ⟨h1, h2, h3, h4, h5, _⟩ := filterScan_some _ _ _ _ _ hs
    have hlen : (keys.drop fk.index).length = keys.length - fk.index := List.length_drop _ _
    have hidx : fk.index + (j - 1 - fk.index) = j - 1 := by omega
    rw [List.getElem?_drop, hidx] at h3
    have hlt : j - 1 < keys.length := by
      by_contra hc
      rw [List.getElem?_eq_none (by omega)] at h3
      exact Option.noConfusion h3
    refine ⟨j - 1, k, keyid, by simp [filterKeys.chosen, hs], by omega, hlt, h3, h4, ?_, ?_, ?_⟩
    · intro n hn1 hn2 x hx
      apply h5 (n - fk.index) (by omega) x
      rw [List.getElem?_drop]
      have : fk.index + (n - fk.index) = n := by omega
      rw [this]; exact hx
    · have hj : j - 1 + 1 = j := by omega
      simp only [filterKeys.filter, hs, hj]
      cases w.nextEvent with
      | rawFails e => rfl
      | readFails e => rfl
      | line pw =>
        dsimp only
        split
        · rfl
        · split
          · rfl
          · split
            · split <;> rfl
            · rfl
    · simp only [filterKeys.filter, hs]
      cases w.nextEvent with
      | rawFails e => left; rfl
      | readFails e => right; rfl
      | line pw =>
        right
        dsimp only
        split
        · rfl
        · split
          · rfl
          · split
            · split
              · rename_i w2 heq
                have h := congrArg (fun r : Option Err × World => r.2.prompts) heq
                simp only [(Decrypt_prompts _ _ _).1] at h
                exact h.symm
              · rename_i w2 heq
                have h := congrArg (fun r : Option Err × World => r.2.prompts) heq
                simp only [(Decrypt_prompts _ _ _).1] at h
                exact h.symm
            · rfl

theorem filterCalls_invariant (keys : List Key) :
    ∀ (calls : List (Bool × World)) (fk : filterKeys),
      (∀ i ∈ (filterCalls keys calls fk).1.filterMap (fun c => c.chosen),
          fk.index ≤ i ∧ i < keys.length ∧ ∃ k, keys[i]? = some k ∧ k.promptable = true) ∧
      ((filterCalls keys calls fk).1.filterMap (fun c => c.chosen)).Pairwise (· < ·) ∧
      ((filterCalls keys calls fk).1.filterMap (fun c => c.chosen)).length
          ≤ keys.length - fk.index ∧
      (∀ c ∈ (filterCalls keys calls fk).1,
          c.after.prompts = c.before.prompts ∨
          ∃ i keyid, c.chosen = some i ∧ c.after.prompts = c.before.prompts ++ [(i, keyid)]) ∧
      (∀ c ∈ (filterCalls keys calls fk).1,
          c.chosen = none → c.result = ⟨none, some Err.EOF⟩ ∧ c.after = c.before) ∧
      (∀ n c, (filterCalls keys calls fk).1[n]? = some c → keys.length ≤ fk.index + n →
          c.chosen = none) ∧
      ((filterCalls keys calls fk).1.Pairwise (fun a b => a.chosen = none → b.chosen = none)) := by
  intro calls
  induction calls with
  | nil =>
    intro fk
    simp [filterCalls]
  | cons call calls ih =>
    intro fk
    obtain ⟨symmetric, w⟩ := call
    obtain ⟨r1, r2, r3, r4, r5, r6, r7⟩ := ih (fk.filter keys symmetric w).2.1
    rcases filter_call fk keys symmetric w with
      ⟨hc, hlen, hle, hres, hw⟩ | ⟨i, k, keyid, hc, hi1, hi2, hk, hkp, _, hidx, hpr⟩
    · -- no key chosen: the receiver's index is past the keys from now on
      have hnone : ∀ c ∈ (filterCalls keys calls (fk.filter keys symmetric w).2.1).1,
          c.chosen = none := by
        intro c hcm
        obtain ⟨n, hn⟩ := List.getElem?_of_mem hcm
        exact r6 n c hn (by omega)
      have hnil : (filterCalls keys calls (fk.filter keys symmetric w).2.1).1.filterMap
          (fun c => c.chosen) = [] := by
        rw [List.filterMap_eq_nil_iff]
        exact hnone
      simp only [filterCalls, List.filterMap_cons, hc, hnil]
      refine ⟨by simp, by simp, by simp, ?_, ?_, ?_, ?_⟩
      · intro c hcm
        rcases List.mem_cons.mp hcm with e | e
        · subst e; left; simp [hw]
        · exact r4 c e
      · intro c hcm hcn
        rcases List.mem_cons.mp hcm with e | e
        · subst e; exact ⟨hres, hw⟩
        · exact r5 c e hcn
      · intro n c hn _
        cases n with
        | zero => simp at hn; subst hn; rfl
        | succ n =>
          rw [List.getElem?_cons_succ] at hn
          exact hnone c (List.getElem?_mem hn)
      · rw [List.pairwise_cons]
        exact ⟨fun c hcm _ => hnone c hcm, r7⟩
    · -- key `i` chosen: later calls start from `i + 1`
      simp only [filterCalls, List.filterMap_cons, hc]
      refine ⟨?_, ?_, ?_, ?_, ?_, ?_, ?_⟩
      · intro x hx
        rcases List.mem_cons.mp hx with e | e
        · subst e; exact ⟨hi1, hi2, k, hk, hkp⟩
        · obtain ⟨h1, h2, h3⟩ := r1 x e
          exact ⟨by omega, h2, h3⟩
      · rw [List.pairwise_cons]
        refine ⟨?_, r2⟩
        intro x hx
        have := (r1 x hx).1
        omega
      · simp only [List.length_cons]
        omega
      · intro c hcm
        rcases List.mem_cons.mp hcm with e | e
        · subst e
          rcases hpr with h | h
          · left; exact h
          · right; exact ⟨i, keyid, rfl, h⟩
        · exact r4 c e
      · intro c hcm hcn
        rcases List.mem_cons.mp hcm with e | e
        · subst e; simp at hcn
        · exact r5 c e hcn
      · intro n c hn hle
        cases n with
        | zero => omega
        | succ n =>
          rw [List.getElem?_cons_succ] at hn
          exact r6 n c hn (by omega)
      · rw [List.pairwise_cons]
        refine ⟨?_, r7⟩
        intro c _ hcn
        simp at hcn

/-! ## The library model: supporting lemmas -/

theorem isEncrypted_congr (priv : PrivateKey) (w w1 : World) (h : w1.unlocked = w.unlocked) :
    priv.isEncrypted w1 = priv.isEncrypted w := by
  simp [PrivateKey.isEncrypted, h]

theorem scanPubKeys_candidates (w : World) :
    ∀ (pubKeys acc candidates : List Key), scanPubKeys w pubKeys acc = (none, candidates) →
      ∀ k ∈ candidates, k ∈ acc ∨ ∃ priv, k.PrivateKey = some priv ∧ priv.isEncrypted w = true := by
  intro pubKeys
  induction pubKeys with
  | nil =>
    intro acc candidates h k hk
    simp only [scanPubKeys, Prod.mk.injEq, true_and] at h
    subst h
    exact Or.inl hk
  | cons x pubKeys ih =>
    intro acc candidates h k hk
    rw [scanPubKeys] at h
    cases hp : x.PrivateKey with
    | none =>
      rw [hp] at h
      exact ih acc candidates h k hk
    | some priv =>
      rw [hp] at h
      dsimp only at h
      by_cases he : priv.isEncrypted w = true
      · simp only [he, Bool.not_true, Bool.false_eq_true, if_false] at h
        by_cases hd : (acc.any (fun c => decide (c.PublicKey = x.PublicKey))) = true
        · rw [if_pos hd] at h
          exact ih acc candidates h k hk
        · rw [if_neg hd] at h
          rcases ih (acc ++ [x]) candidates h k hk with h1 | h1
          · rcases List.mem_append.mp h1 with h2 | h2
            · exact Or.inl h2
            · have e : k = x := by simpa using h2
              subst e
              exact Or.inr ⟨priv, hp, he⟩
          · exact Or.inr h1
      · have he2 : priv.isEncrypted w = false := by simpa using he
        simp [he2] at h

/-! ## The default pattern on well-formed keys -/

theorem joinSegments_concat (l : List GoString) (x : GoString) (hl : l ≠ []) :
    joinSegments (l ++ [x]) = joinSegments l ++ '/' :: x := by
  induction l with
  | nil => exact absurd rfl hl
  | cons s l ih =>
    cases l with
    | nil => simp [joinSegments]
    | cons t rest =>
      have := ih (by simp)
      simp only [List.cons_append] at this ⊢
      simp only [joinSegments, this, List.append_assoc, List.cons_append]

theorem joinSegments_ne_nil (s : GoString) (l : List GoString) (hs : Segment s) :
    joinSegments (s :: l) ≠ [] := by
  cases l with
  | nil => exact hs.1
  | cons t rest =>
    simp only [joinSegments]
    intro h
    exact hs.1 (List.append_eq_nil.mp h).1

theorem joinSegments_ne_slash (s : GoString) (l : List GoString) (hs : Segment s) :
    joinSegments (s :: l) ≠ ['/'] := by
  obtain ⟨c, s1, rfl⟩ := List.exists_cons_of_ne_nil hs.1
  have hc : c ≠ '/' := fun e => hs.2 (by simp [e])
  cases l with
  | nil =>
    simp only [joinSegments]
    intro h
    exact hc (List.cons.inj h).1
  | cons t rest =>
    simp only [joinSegments, List.cons_append]
    intro h
    exact hc (List.cons.inj h).1

theorem TrimRight_concat_slash (s : GoString) : TrimRight (s ++ ['/']) ['/'] = TrimRight s ['/'] := by
  unfold TrimRight
  rw [List.rdropWhile_concat_pos]
  decide

theorem TrimRight_joinSegments (l : List GoString) (hl : ∀ s ∈ l, Segment s) :
    TrimRight (joinSegments l) ['/'] = joinSegments l := by
  unfold TrimRight
  rcases List.eq_nil_or_concat l with rfl | ⟨l1, x, h⟩
  · rfl
  · rw [List.concat_eq_append] at h
    subst h
    have hx : Segment x := hl x (by simp)
    rcases List.eq_nil_or_concat x with rfl | ⟨x1, c, h⟩
    · exact absurd rfl hx.1
    · rw [List.concat_eq_append] at h
      subst h
      have hc : c ≠ '/' := fun e => hx.2 (by simp [e])
      have hp : ¬ ((['/'] : GoString).contains c = true) := by simpa using hc
      by_cases h1 : l1 = []
      · subst h1
        simp only [List.nil_append, joinSegments]
        exact List.rdropWhile_concat_neg _ _ _ hp
      · rw [joinSegments_concat l1 _ h1]
        have e : joinSegments l1 ++ '/' :: (x1 ++ [c]) = (joinSegments l1 ++ '/' :: x1) ++ [c] := by
          simp
        rw [e]
        exact List.rdropWhile_concat_neg _ _ _ hp

theorem Split_joinSegments_single (s : GoString) (hs : Segment s) :
    Split (joinSegments [s]) = ([], s) :=
  Split_of_not_mem s hs.2

theorem Split_joinSegments_concat (l : List GoString) (x : GoString) (hl : l ≠ [])
    (hx : Segment x) :
    Split (joinSegments (l ++ [x])) = (joinSegments l ++ ['/'], x) := by
  rw [joinSegments_concat l x hl]
  exact Split_append_slash _ _ hx.2

/-- The loop of `setCmd` from a directory made of well-formed segments: it climbs to the
first segment. -/
theorem patternLoop_joinSegments (node s0 : GoString) (hnode : '/' ∉ node) :
    ∀ (l : List GoString) (fuel : Nat), (∀ s ∈ s0 :: l, Segment s) → l.length + 1 < fuel + 1 →
      patternLoop node fuel (joinSegments (s0 :: l)) (Split (joinSegments (s0 :: l))).1
        = some s0 := by
  intro l
  induction l using List.reverseRecOn with
  | nil =>
    intro fuel hl hf
    obtain ⟨n, rfl⟩ : ∃ n, fuel = n + 1 := ⟨fuel - 1, by simp at hf; omega⟩
    rw [Split_joinSegments_single s0 (hl s0 (by simp))]
    simp [patternLoop, joinSegments]
  | append_singleton l x ih =>
    intro fuel hl hf
    obtain ⟨n, rfl⟩ : ∃ n, fuel = n + 1 := ⟨fuel - 1, by simp at hf; omega⟩
    have hx : Segment x := hl x (by simp)
    have hl1 : ∀ s ∈ s0 :: l, Segment s := fun s hs => hl s (by
      rcases List.mem_cons.mp hs with e | e
      · simp [e]
      · simp [e])
    have e1 : s0 :: (l ++ [x]) = (s0 :: l) ++ [x] := rfl
    rw [e1, Split_joinSegments_concat (s0 :: l) x (by simp) hx]
    have hc : (joinSegments (s0 :: l) ++ ['/'] ≠ node) ∧
        (joinSegments (s0 :: l) ++ ['/'] ≠ []) ∧ (joinSegments (s0 :: l) ++ ['/'] ≠ ['/']) := by
      refine ⟨?_, by simp, ?_⟩
      · intro h
        exact hnode (h ▸ by simp)
      · intro h
        have : joinSegments (s0 :: l) = [] := by
          have h2 := congrArg List.length h
          simp only [List.length_append, List.length_singleton] at h2
          exact List.length_eq_zero.mp (by omega)
        exact joinSegments_ne_nil s0 l (hl s0 (by simp)) this
    rw [patternLoop, if_pos hc]
    simp only []
    rw [TrimRight_concat_slash, TrimRight_joinSegments _ hl1]
    exact ih n hl1 (by simp at hf ⊢; omega)

theorem length_le_joinSegments (l : List GoString) (h : ∀ s ∈ l, Segment s) :
    l.length ≤ (joinSegments l).length := by
  induction l with
  | nil => simp
  | cons s l ih =>
    have hs : 0 < s.length := List.length_pos.mpr (h s (by simp)).1
    cases l with
    | nil => simpa [joinSegments] using hs
    | cons t rest =>
      have := ih (fun y hy => h y (by simp [hy]))
      simp only [joinSegments, List.length_append, List.length_cons] at this ⊢
      omega

theorem slash_mem_joinSegments (s t : GoString) (l : List GoString) :
    '/' ∈ joinSegments (s :: t :: l) := by
  simp [joinSegments]

/-- The default pattern of a well-formed key is its first segment, unless the key is made
of two equal segments. -/
theorem keySelector_first_segment (s0 : GoString) (rest : List GoString)
    (hseg : ∀ s ∈ s0 :: rest, Segment s) (hne : rest ≠ [s0]) (fuel : Nat)
    (hfuel : (joinSegments (s0 :: rest)).length < fuel) :
    keySelector fuel (joinSegments (s0 :: rest)) = some [s0] := by
  have hs0 : Segment s0 := hseg s0 (by simp)
  have hfin : ∀ key : GoString, (if s0 = [] ∨ s0 = ['/'] then key else s0) = s0 := by
    intro key
    rw [if_neg]
    rintro (h | h)
    · exact hs0.1 h
    · exact hs0.2 (by simp [h])
  obtain ⟨n, rfl⟩ : ∃ n, fuel = n + 1 := ⟨fuel - 1, by omega⟩
  rcases List.eq_nil_or_concat rest with rfl | ⟨l, x, h⟩
  · -- a key without separator
    simp only [keySelector, Split_joinSegments_single s0 hs0]
    have : TrimRight ([] : GoString) ['/'] = [] := rfl
    simp [this, patternLoop, joinSegments]
  · rw [List.concat_eq_append] at h
    subst h
    have hx : Segment x := hseg x (by simp)
    have hl1 : ∀ s ∈ s0 :: l, Segment s := fun s hs => hseg s (by
      rcases List.mem_cons.mp hs with e | e
      · simp [e]
      · simp [e])
    have e1 : s0 :: (l ++ [x]) = (s0 :: l) ++ [x] := rfl
    have hlen : (joinSegments (s0 :: l)).length + 1 ≤ (joinSegments (s0 :: (l ++ [x]))).length := by
      rw [e1, joinSegments_concat _ _ (by simp)]
      simp
    have hcount : l.length + 1 ≤ (joinSegments (s0 :: l)).length :=
      length_le_joinSegments (s0 :: l) hl1
    have hdir : joinSegments (s0 :: l) ≠ x := by
      intro h
      cases l with
      | nil =>
        apply hne
        simp only [joinSegments] at h
        simp [h]
      | cons t l =>
        exact hx.2 (h ▸ slash_mem_joinSegments s0 t l)
    have hc : (joinSegments (s0 :: l) ≠ x) ∧ (joinSegments (s0 :: l) ≠ []) ∧
        (joinSegments (s0 :: l) ≠ ['/']) :=
      ⟨hdir, joinSegments_ne_nil s0 l hs0, joinSegments_ne_slash s0 l hs0⟩
    simp only [keySelector]
    rw [e1, Split_joinSegments_concat (s0 :: l) x (by simp) hx]
    simp only []
    rw [TrimRight_concat_slash, TrimRight_joinSegments _ hl1, patternLoop, if_pos hc]
    simp only []
    rw [TrimRight_joinSegments _ hl1]
    obtain ⟨m, rfl⟩ : ∃ m, n = m + 1 := ⟨n - 1, by omega⟩
    rw [patternLoop_joinSegments x s0 hx.2 l (m + 1) hl1 (by omega)]
    simp only [hfin]

/-! ## The library model inverts its own encryption -/

theorem scanPubKeys_of_unlocked (w : World) :
    ∀ (pubKeys acc : List Key),
      (∃ k ∈ pubKeys, ∃ priv, k.PrivateKey = some priv ∧ priv.isEncrypted w = false) →
      ∃ k c, scanPubKeys w pubKeys acc = (some k, c) := by
  intro pubKeys
  induction pubKeys with
  | nil => intro acc h; simp at h
  | cons x pubKeys ih =>
    intro acc h
    obtain ⟨k, hk, priv, hpriv, hun⟩ := h
    rw [scanPubKeys]
    cases hp : x.PrivateKey with
    | none =>
      rcases List.mem_cons.mp hk with e | e
      · subst e; rw [hp] at hpriv; exact Option.noConfusion hpriv
      · exact ih acc ⟨k, e, priv, hpriv, hun⟩
    | some xpriv =>
      dsimp only
      by_cases hx : xpriv.isEncrypted w = true
      · have hrest : ∃ k ∈ pubKeys, ∃ priv, k.PrivateKey = some priv ∧
            priv.isEncrypted w = false := by
          rcases List.mem_cons.mp hk with e | e
          · subst e
            rw [hp] at hpriv
            have := Option.some.inj hpriv
            subst this
            rw [hun] at hx
            exact Bool.noConfusion hx
          · exact ⟨k, e, priv, hpriv, hun⟩
        simp only [hx, Bool.not_true, Bool.false_eq_true, if_false]
        split
        · exact ih acc hrest
        · exact ih _ hrest
      · have hx2 : xpriv.isEncrypted w = false := by simpa using hx
        exact ⟨x, acc, by simp [hx2]⟩

theorem mem_pubKeys (secret : EntityList) (ids : List Nat) (s : Entity) (hs : s ∈ secret)
    (hid : s.PrimaryKey.KeyId ∈ ids) : s.key ∈ ids.flatMap (KeysById secret) := by
  rw [List.mem_flatMap]
  refine ⟨s.PrimaryKey.KeyId, hid, ?_⟩
  simp only [KeysById, List.mem_map, List.mem_filter, beq_iff_eq]
  exact ⟨s, ⟨hs, rfl⟩, rfl⟩

/-- In the library model `ReadMessage` gives back the literal data of a message encrypted to
a key id of which the keyring holds a private key that is not encrypted, without calling
the prompt. -/
theorem ReadMessageModel_of_unlocked (C : Codec) (fuel : Nat) (ids : List Nat) (x : Bytes)
    (secret : EntityList) (prompt : PromptFunction) (st : PromptState)
    (hparse : C.parse ⟨C.serialize ids x, none⟩ = .ok ⟨true, ids, [], ⟨x, none⟩⟩)
    (hkey : ∃ s ∈ secret, s.PrimaryKey.KeyId ∈ ids ∧
      ∃ priv, s.PrivateKey = some priv ∧ priv.isEncrypted st.2 = false) :
    ReadMessageModel C (fuel + 1) ⟨C.serialize ids x, none⟩ secret prompt st
      = (.ok ⟨x, none⟩, st) := by
  obtain ⟨s, hs, hid, priv, hpriv, hun⟩ := hkey
  obtain ⟨k, c, hscan⟩ := scanPubKeys_of_unlocked st.2 (ids.flatMap (KeysById secret)) []
    ⟨s.key, mem_pubKeys secret ids s hs hid, priv, hpriv, hun⟩
  simp [ReadMessageModel, hparse, FindKey, hscan]

theorem encode_model_blob (C : Codec) (fuel : Nat) (P blob : Bytes) (R : EntityList)
    (hencode : encode (openpgpModel C fuel) P R = ⟨some blob, none⟩) :
    blob = C.base64Encode (C.serialize (R.map (fun e => e.PrimaryKey.KeyId)) (C.gzip P)) := by
  cases h0 : C.encryptError R with
  | some e => simp [encode, openpgpModel, EncryptModel, h0] at hencode
  | none =>
    by_cases hall : (R.all fun e => e.hasEncryptionKey) = true
    · cases h2 : C.gzWrite P with
      | some e => simp [encode, openpgpModel, EncryptModel, h0, hall, h2] at hencode
      | none =>
        cases h3 : C.gzClose P with
        | some e => simp [encode, openpgpModel, EncryptModel, h0, hall, h2, h3] at hencode
        | none =>
          cases h4 : C.pgpClose R P with
          | some e =>
            simp [encode, openpgpModel, EncryptModel, h0, hall, h2, h3, h4] at hencode
          | none =>
            cases h5 : C.base64Close P with
            | some e =>
              simp [encode, openpgpModel, EncryptModel, h0, hall, h2, h3, h4, h5] at hencode
            | none =>
              simp [encode, openpgpModel, EncryptModel, h0, hall, h2, h3, h4, h5] at hencode
              exact hencode.symm
    · simp [encode, openpgpModel, EncryptModel, h0, hall] at hencode

/-- The round trip in the library model: when the secret keyring holds a private key that
is not encrypted for some recipient, `Decode` gives back the plaintext of the blob that
`encode` made, and nothing is asked at the terminal. -/
theorem Decode_encode_of_unlocked_key (C : Codec) (fuel : Nat) (P blob secretKeyring : Bytes)
    (R secret : EntityList) (w : World)
    (hbase64 : ∀ x, C.base64Decode (C.base64Encode x) = ⟨x, none⟩)
    (hgzip : ∀ x, C.gzipNewReader ⟨C.gzip x, none⟩ = .ok ⟨x, none⟩)
    (hparse : ∀ x, C.parse ⟨C.serialize (R.map (fun e => e.PrimaryKey.KeyId)) x, none⟩
      = .ok ⟨true, R.map (fun e => e.PrimaryKey.KeyId), [], ⟨x, none⟩⟩)
    (hkeyring : C.ReadKeyRing secretKeyring = .ok secret)
    (hkey : ∃ e ∈ R, ∃ s ∈ secret, s.PrimaryKey.KeyId = e.PrimaryKey.KeyId ∧
      ∃ priv, s.PrivateKey = some priv ∧ priv.isEncrypted w = false)
    (hencode : encode (openpgpModel C (fuel + 1)) P R = ⟨some blob, none⟩) :
    Decode (openpgpModel C (fuel + 1)) blob secretKeyring w = (⟨some P, none⟩, w) := by
  obtain ⟨e, he, s, hs, hid, priv, hpriv, hun⟩ := hkey
  have hblob := encode_model_blob C _ P blob R hencode
  subst hblob
  have hread := ReadMessageModel_of_unlocked C fuel (R.map (fun e => e.PrimaryKey.KeyId))
    (C.gzip P) secret filterPrompt (⟨0, secret⟩, w) (hparse _)
    ⟨s, hs, by rw [hid]; exact List.mem_map_of_mem _ he, priv, hpriv, hun⟩
  simp [Decode, openpgpModel, hkeyring, hbase64, hread, hgzip, ReadAll]

theorem scanPubKeys_candidates_mem (w : World) :
    ∀ (pubKeys acc candidates : List Key), scanPubKeys w pubKeys acc = (none, candidates) →
      ∀ k ∈ candidates, k ∈ acc ∨ k ∈ pubKeys := by
  intro pubKeys
  induction pubKeys with
  | nil =>
    intro acc candidates h k hk
    simp only [scanPubKeys, Prod.mk.injEq, true_and] at h
    subst h
    exact Or.inl hk
  | cons x pubKeys ih =>
    intro acc candidates h k hk
    rw [scanPubKeys] at h
    cases hp : x.PrivateKey with
    | none =>
      rw [hp] at h
      rcases ih acc candidates h k hk with h1 | h1
      · exact Or.inl h1
      · exact Or.inr (List.mem_cons_of_mem _ h1)
    | some priv =>
      rw [hp] at h
      dsimp only at h
      by_cases he : priv.isEncrypted w = true
      · simp only [he, Bool.not_true, Bool.false_eq_true, if_false] at h
        by_cases hd : (acc.any (fun c => decide (c.PublicKey = x.PublicKey))) = true
        · rw [if_pos hd] at h
          rcases ih acc candidates h k hk with h1 | h1
          · exact Or.inl h1
          · exact Or.inr (List.mem_cons_of_mem _ h1)
        · rw [if_neg hd] at h
          rcases ih (acc ++ [x]) candidates h k hk with h1 | h1
          · rcases List.mem_append.mp h1 with h2 | h2
            · exact Or.inl h2
            · have e : k = x := by simpa using h2
              subst e
              exact Or.inr (List.mem_cons_self _ _)
          · exact Or.inr (List.mem_cons_of_mem _ h1)
      · have he2 : priv.isEncrypted w = false := by simpa using he
        simp [he2] at h

/-- The round trip in the library model when every private key the secret keyring holds for
the recipients is encrypted: `Decode` gives back the plaintext when the line read at
the prompt is, blanks apart, the passphrase of the key the prompt chose. -/
theorem Decode_encode_of_prompted_key (C : Codec) (fuel : Nat) (P blob secretKeyring : Bytes)
    (R secret : EntityList) (w : World) (candidates : List Key) (index : Nat) (k : Key)
    (keyid pw : GoString)
    (hbase64 : ∀ x, C.base64Decode (C.base64Encode x) = ⟨x, none⟩)
    (hgzip : ∀ x, C.gzipNewReader ⟨C.gzip x, none⟩ = .ok ⟨x, none⟩)
    (hparse : ∀ x, C.parse ⟨C.serialize (R.map (fun e => e.PrimaryKey.KeyId)) x, none⟩
      = .ok ⟨true, R.map (fun e => e.PrimaryKey.KeyId), [], ⟨x, none⟩⟩)
    (hkeyring : C.ReadKeyRing secretKeyring = .ok secret)
    (hscan : scanPubKeys w ((R.map (fun e => e.PrimaryKey.KeyId)).flatMap (KeysById secret)) []
      = (none, candidates))
    (hchosen : filterScan candidates 0 = (index, some (k, keyid)))
    (hline : w.nextEvent = TermEvent.line pw)
    (hright : ∀ priv, k.PrivateKey = some priv → TrimSpace pw = priv.passphrase)
    (hencode : encode (openpgpModel C (fuel + 2)) P R = ⟨some blob, none⟩) :
    (Decode (openpgpModel C (fuel + 2)) blob secretKeyring w).1 = ⟨some P, none⟩ := by
  have hblob := encode_model_blob C _ P blob R hencode
  subst hblob
  obtain ⟨_, _, hk, _, _, _⟩ := filterScan_some _ _ _ _ _ hchosen
  have hkm : k ∈ candidates := List.getElem?_mem hk
  have hne : candidates.isEmpty = false := by
    cases candidates with
    | nil => simp at hkm
    | cons a l => rfl
  have hkp : k ∈ (R.map (fun e => e.PrimaryKey.KeyId)).flatMap (KeysById secret) := by
    rcases scanPubKeys_candidates_mem w _ _ _ hscan k hkm with h | h
    · simp at h
    · exact h
  rcases scanPubKeys_candidates w _ _ _ hscan k hkm with h | ⟨priv, hpriv, hlocked⟩
  · simp at h
  · have hr := hright priv hpriv
    have hl1 : priv.isEncrypted
        { terminal := w.terminal.tail, unlocked := w.unlocked,
          prompts := w.prompts ++ [(index - 1, keyid)] } = true :=
      (isEncrypted_congr priv w _ rfl).trans hlocked
    have hun : priv.isEncrypted
        { terminal := w.terminal.tail, unlocked := priv.ref :: w.unlocked,
          prompts := w.prompts ++ [(index - 1, keyid)] } = false := by
      simp [PrivateKey.isEncrypted]
    obtain ⟨k2, c2, hscan2⟩ := scanPubKeys_of_unlocked
      { terminal := w.terminal.tail, unlocked := priv.ref :: w.unlocked,
        prompts := w.prompts ++ [(index - 1, keyid)] }
      ((R.map (fun e => e.PrimaryKey.KeyId)).flatMap (KeysById secret)) []
      ⟨k, hkp, priv, hpriv, hun⟩
    simp [Decode, openpgpModel, ReadMessageModel, FindKey, hkeyring, hbase64, hparse, hscan,
      hne, filterPrompt, filterKeys.filter, hchosen, hline, hpriv, hl1, PrivateKey.Decrypt, hr,
      hscan2, hgzip, ReadAll]

/-! ## The claims -/

/-- C1, as the code has it: with gzip, base64 and the OpenPGP packet framing taken as
functions whose decode inverts their encode, `Decode` applied to the blob that `encode`
produced for a plaintext `P` and recipients `R` succeeds and returns exactly `P` when the
secret keyring holds for some recipient a private key that is not encrypted, or when all
its keys for the recipients are encrypted and the line read at the prompt is the
passphrase of the key the prompt chose; either condition makes `R` non-empty. -/
theorem Decode_encode_usable_key (C : Codec) (fuel : Nat) (P blob secretKeyring : Bytes)
    (R secret : EntityList) (w : World)
    (hbase64 : ∀ x, C.base64Decode (C.base64Encode x) = ⟨x, none⟩)
    (hgzip : ∀ x, C.gzipNewReader ⟨C.gzip x, none⟩ = .ok ⟨x, none⟩)
    (hparse : ∀ x, C.parse ⟨C.serialize (R.map (fun e => e.PrimaryKey.KeyId)) x, none⟩
      = .ok ⟨true, R.map (fun e => e.PrimaryKey.KeyId), [], ⟨x, none⟩⟩)
    (hkeyring : C.ReadKeyRing secretKeyring = .ok secret)
    (hkey : HoldsUnlockedKey R secret w ∨ PromptUnlocksChosenKey R secret w)
    (hencode : encode (openpgpModel C (fuel + 2)) P R = ⟨some blob, none⟩) :
    R ≠ [] ∧ (Decode (openpgpModel C (fuel + 2)) blob secretKeyring w).1 = ⟨some P, none⟩ := by
  rcases hkey with hu | ⟨candidates, index, k, keyid, pw, hscan, hchosen, hline, hright⟩
  · refine ⟨?_, ?_⟩
    · obtain ⟨e, he, _⟩ := hu
      exact List.ne_nil_of_mem he
    · rw [Decode_encode_of_unlocked_key C (fuel + 1) P blob secretKeyring R secret w hbase64
        hgzip hparse hkeyring hu hencode]
  · refine ⟨?_, ?_⟩
    · intro hR
      subst hR
      simp only [List.map_nil, List.flatMap_nil, scanPubKeys, Prod.mk.injEq, true_and] at hscan
      subst hscan
      simp [filterScan] at hchosen
    · exact Decode_encode_of_prompted_key C fuel P blob secretKeyring R secret w candidates
        index k keyid pw hbase64 hgzip hparse hkeyring hscan hchosen hline hright hencode

/-- C1 at a concrete input: `hello` is encoded for alice and bob; the secret keyring holds
their keys, both encrypted, the prompt asks for alice's key and the line typed is alice's
passphrase between blanks. -/
theorem Decode_encode_usable_key_witness :
    [alice, bob] ≠ [] ∧
    (Decode exampleLib ['o', 'l', 'l', 'e', 'h', 'z', ';', Char.ofNat 2, Char.ofNat 1]
      "sec".toList (typing [" pw-a ", "pw-b"])).1 = ⟨some "hello".toList, none⟩ :=
  Decode_encode_usable_key
    (exampleCodec [alice, bob]
      [alice.withPrivateKey 10 true "pw-a", bob.withPrivateKey 11 true "pw-b"]) 1
    "hello".toList ['o', 'l', 'l', 'e', 'h', 'z', ';', Char.ofNat 2, Char.ofNat 1]
    "sec".toList [alice, bob]
    [alice.withPrivateKey 10 true "pw-a", bob.withPrivateKey 11 true "pw-b"]
    (typing [" pw-a ", "pw-b"])
    (fun x => by simp [exampleCodec])
    (fun x => by simp [exampleCodec])
    (fun x => rfl)
    rfl
    (Or.inr ⟨[(alice.withPrivateKey 10 true "pw-a").key, (bob.withPrivateKey 11 true "pw-b").key],
      1, (alice.withPrivateKey 10 true "pw-a").key, "0000000A".toList, " pw-a ".toList,
      by decide, by decide, by decide, by decide⟩)
    (by decide)

/-- C1 fails as stated: `hello` is encoded for alice and bob, the secret keyring holds the
private keys of both, encrypted, and the line typed is bob's passphrase, which unlocks
bob's key (with bob's key alone in the keyring `Decode` returns `hello`); yet `Decode`
asks for alice's key, fails to unlock it and returns the unlock error and no plaintext. -/
theorem Decode_encode_fails_on_first_candidate :
    encode exampleLib "hello".toList [alice, bob]
      = ⟨some ['o', 'l', 'l', 'e', 'h', 'z', ';', Char.ofNat 2, Char.ofNat 1], none⟩ ∧
    bob ∈ [alice, bob] ∧
    bob.withPrivateKey 11 true "pw-b"
      ∈ [alice.withPrivateKey 10 true "pw-a", bob.withPrivateKey 11 true "pw-b"] ∧
    (bob.withPrivateKey 11 true "pw-b").PrimaryKey.KeyId = bob.PrimaryKey.KeyId ∧
    (bob.withPrivateKey 11 true "pw-b").PrivateKey = some ⟨11, true, "pw-b".toList⟩ ∧
    TrimSpace "pw-b".toList = "pw-b".toList ∧
    (Decode
        (openpgpModel (exampleCodec [alice, bob] [bob.withPrivateKey 11 true "pw-b"]) 3)
        ['o', 'l', 'l', 'e', 'h', 'z', ';', Char.ofNat 2, Char.ofNat 1]
        "sec".toList (typing ["pw-b"])).1 = ⟨some "hello".toList, none⟩ ∧
    (Decode exampleLib ['o', 'l', 'l', 'e', 'h', 'z', ';', Char.ofNat 2, Char.ofNat 1]
        "sec".toList (typing ["pw-b"])).1 = ⟨none, some Err.unlockFailure⟩ := by
  decide

/-- C2, as the code has it: the entity of the keyring that has an identity name containing
a pattern, and that no entity with such an identity precedes in the keyring, is in the
result of `pubkeyFilter.Entities`. -/
theorem Entities_includes_first_match (pk : pubkeyFilter) (pre : List Entity) (e : Entity)
    (post : List Entity) (hpre : ∀ x ∈ pre, ¬ Selected pk x) (he : Selected pk e) :
    e ∈ pk.Entities (pre ++ e :: post) := by
  rw [Entities_of_first pk pre e post hpre he]
  exact List.mem_singleton_self e

/-- C2 at a concrete input: with pattern `ops`, `alice@ops` (first in the keyring) is in
the result. -/
theorem Entities_includes_first_match_witness :
    alice ∈ pubkeyFilter.Entities ["ops".toList] ([] ++ alice :: [carol]) :=
  Entities_includes_first_match ["ops".toList] [] alice [carol] (by simp) (by decide)

/-- C2 fails as stated: `carol@ops` is in the keyring and contains the pattern `ops`, and
yet the result of `pubkeyFilter.Entities` does not include it. -/
theorem Entities_not_complete :
    carol ∈ [alice, carol] ∧ Selected ["ops".toList] carol ∧
      carol ∉ pubkeyFilter.Entities ["ops".toList] [alice, carol] := by
  decide

/-- C3: every entity `pubkeyFilter.Entities` returns is an entity of the keyring that has an
identity name containing a pattern as a substring, and an entity without such an identity
is never returned; `team-a-ops` is selected by `team-a`, `team-b` is not, and of
`alice@ops` and `bob@dev` the pattern `ops` selects only alice. -/
theorem Entities_sound :
    (∀ (pk : pubkeyFilter) (ents : List Entity) (e : Entity),
        e ∈ pk.Entities ents → e ∈ ents ∧ Selected pk e) ∧
    (∀ (pk : pubkeyFilter) (ents : List Entity) (e : Entity),
        ¬ Selected pk e → e ∉ pk.Entities ents) ∧
    pubkeyFilter.Entities ["team-a".toList] [publicEntity ["team-a-ops"] 7 "00000007"]
      = [publicEntity ["team-a-ops"] 7 "00000007"] ∧
    pubkeyFilter.Entities ["team-a".toList] [publicEntity ["team-b"] 8 "00000008"] = [] ∧
    pubkeyFilter.Entities ["ops".toList] [alice, bob] = [alice] ∧
    pubkeyFilter.Entities ["ops".toList] [bob, alice] = [alice] := by
  refine ⟨fun pk ents e h => Entities_mem pk ents e h,
    fun pk ents e hn h => hn (Entities_mem pk ents e h).2, ?_, ?_, ?_, ?_⟩ <;> decide

/-- C3 at a concrete input: the entity returned for pattern `ops` is in the keyring and has
an identity containing `ops`. -/
theorem Entities_sound_witness :
    alice ∈ [alice, bob] ∧ Selected ["ops".toList] alice :=
  Entities_sound.1 ["ops".toList] [alice, bob] alice (by decide)

/-- C4 fails on the key `a/a`: its two segments are equal, the loop condition
`dir != node` stops the loop before its body has run, and the pattern is `a/`, not the
first segment `a`; for `a/b` the pattern is `a`. -/
theorem keySelector_equal_segments :
    keySelector 4 "a/a".toList = some ["a/".toList] ∧
      keySelector 4 "a/b".toList = some ["a".toList] ∧
      keySelector 4 "db/db".toList = some ["db/".toList] := by
  decide

/-- C5, as the code has it: `EncodeWith` and `encode` do not check the list the filter
yields; for an empty list `EncodeWith` returns what `encode` returns for no recipients: an
error and no blob when `openpgp.Encrypt` rejects the empty list, and, when `Encrypt`
accepts it and no write or close fails, a blob without error. -/
theorem EncodeWith_empty_recipients (L : Lib) (data keyring : Bytes)
    (f : EntityList → EntityList)
    (hempty : ∀ entityList, L.ReadKeyRing keyring = .ok entityList → f entityList = []) :
    (∀ entityList, L.ReadKeyRing keyring = .ok entityList →
      EncodeWith L data keyring f = encode L data []) ∧
    ((∀ pgpWriter, L.Encrypt [] ≠ .ok pgpWriter) →
      (EncodeWith L data keyring f).bytes = none ∧
        ∃ err, (EncodeWith L data keyring f).err = some err) ∧
    (∀ entityList pgpWriter, L.ReadKeyRing keyring = .ok entityList →
      L.Encrypt [] = .ok pgpWriter → L.gzWrite data = none → L.gzClose data = none →
      L.pgpClose [] data = none → L.base64Close data = none →
      EncodeWith L data keyring f
        = ⟨some (L.base64Encode (pgpWriter (L.gzip data))), none⟩) := by
  refine ⟨?_, ?_, ?_⟩
  · intro el h
    simp [EncodeWith, h, hempty el h]
  · intro hEncrypt
    unfold EncodeWith
    cases h : L.ReadKeyRing keyring with
    | error e => exact ⟨rfl, e, rfl⟩
    | ok el =>
      simp only [hempty el h, encode]
      cases h1 : L.Encrypt [] with
      | error e => exact ⟨rfl, e, rfl⟩
      | ok pw => exact absurd h1 (hEncrypt pw)
  · intro el pw h h1 h2 h3 h4 h5
    simp [EncodeWith, h, hempty el h, encode, h1, h2, h3, h4, h5]

/-- C5 at a concrete input: no identity of the example keyring contains `nobody`; with an
`Encrypt` that rejects the empty list `EncodeWith` returns an error and no blob. -/
theorem EncodeWith_empty_recipients_witness :
    (EncodeWith exampleLibStrict "hello".toList "pub".toList
        (pubkeyFilter.Entities ["nobody".toList])).bytes = none ∧
      ∃ err, (EncodeWith exampleLibStrict "hello".toList "pub".toList
        (pubkeyFilter.Entities ["nobody".toList])).err = some err :=
  (EncodeWith_empty_recipients exampleLibStrict "hello".toList "pub".toList
    (pubkeyFilter.Entities ["nobody".toList])
    (fun entityList h => by
      have e : (Except.ok [alice, bob] : Except Err EntityList) = Except.ok entityList := h
      rw [← Except.ok.inj e]
      decide)).2.1
    (fun pgpWriter h => Except.noConfusion h)

/-- C5 fails as stated: the filter yields an empty recipient list and, with an `Encrypt`
that accepts it (the library before 2018-08), `EncodeWith` returns no error but a blob,
encrypted to zero recipients, that `Decode` cannot open with any key of the secret
keyring. -/
theorem EncodeWith_empty_not_rejected :
    pubkeyFilter.Entities ["nobody".toList] [alice, bob] = [] ∧
    EncodeWith exampleLib "hello".toList "pub".toList (pubkeyFilter.Entities ["nobody".toList])
      = ⟨some ['o', 'l', 'l', 'e', 'h', 'z', ';'], none⟩ ∧
    (Decode exampleLib ['o', 'l', 'l', 'e', 'h', 'z', ';'] "sec".toList
      (typing ["pw-a", "pw-b"])).1 = ⟨none, some Err.keyIncorrect⟩ := by
  decide

/-- C6: `encode`, `Encode`, `EncodeWith` and `Decode` return the error of the first layer
that fails together with a nil result, whatever the library functions do, and a non-nil
result only without error and when every layer succeeded; in particular an error of the
gzip header or of the gzip body after a successful `ReadMessage` makes `Decode` return
that error and no plaintext, also when `ReadAll` read some bytes. -/
theorem no_partial_results (L : Lib) (data keyring : Bytes) (entityList : EntityList)
    (f : EntityList → EntityList) (w : World) :
    -- encode
    (∀ err, L.Encrypt entityList = .error err → encode L data entityList = ⟨none, some err⟩) ∧
    (∀ pgpWriter err, L.Encrypt entityList = .ok pgpWriter → L.gzWrite data = some err →
        encode L data entityList = ⟨none, some err⟩) ∧
    (∀ pgpWriter err, L.Encrypt entityList = .ok pgpWriter → L.gzWrite data = none →
        L.gzClose data = some err → encode L data entityList = ⟨none, some err⟩) ∧
    (∀ pgpWriter err, L.Encrypt entityList = .ok pgpWriter → L.gzWrite data = none →
        L.gzClose data = none → L.pgpClose entityList data = some err →
        encode L data entityList = ⟨none, some err⟩) ∧
    (∀ pgpWriter err, L.Encrypt entityList = .ok pgpWriter → L.gzWrite data = none →
        L.gzClose data = none → L.pgpClose entityList data = none →
        L.base64Close data = some err → encode L data entityList = ⟨none, some err⟩) ∧
    (∀ b, (encode L data entityList).bytes = some b →
        (encode L data entityList).err = none ∧
        ∃ pgpWriter, L.Encrypt entityList = .ok pgpWriter ∧ L.gzWrite data = none ∧
          L.gzClose data = none ∧ L.pgpClose entityList data = none ∧
          L.base64Close data = none ∧ b = L.base64Encode (pgpWriter (L.gzip data))) ∧
    ((encode L data entityList).bytes = none ↔ (encode L data entityList).err ≠ none) ∧
    -- Encode and EncodeWith
    (∀ err, L.ReadKeyRing keyring = .error err →
        Encode L data keyring = ⟨none, some err⟩ ∧
        EncodeWith L data keyring f = ⟨none, some err⟩) ∧
    (∀ el, L.ReadKeyRing keyring = .ok el →
        Encode L data keyring = encode L data el ∧
        EncodeWith L data keyring f = encode L data (f el)) ∧
    -- Decode
    (∀ err, L.ReadKeyRing keyring = .error err →
        Decode L data keyring w = (⟨none, some err⟩, w)) ∧
    (∀ el err s, L.ReadKeyRing keyring = .ok el →
        L.ReadMessage (L.base64Decode data) el filterPrompt (⟨0, el⟩, w) = (.error err, s) →
        (Decode L data keyring w).1 = ⟨none, some err⟩) ∧
    (∀ el body err s, L.ReadKeyRing keyring = .ok el →
        L.ReadMessage (L.base64Decode data) el filterPrompt (⟨0, el⟩, w) = (.ok body, s) →
        L.gzipNewReader body = .error err →
        (Decode L data keyring w).1 = ⟨none, some err⟩) ∧
    (∀ el body gzReader read err s, L.ReadKeyRing keyring = .ok el →
        L.ReadMessage (L.base64Decode data) el filterPrompt (⟨0, el⟩, w) = (.ok body, s) →
        L.gzipNewReader body = .ok gzReader → ReadAll gzReader = (read, some err) →
        (Decode L data keyring w).1 = ⟨none, some err⟩) ∧
    (∀ b, (Decode L data keyring w).1.bytes = some b →
        (Decode L data keyring w).1.err = none ∧
        ∃ el body gzReader s, L.ReadKeyRing keyring = .ok el ∧
          L.ReadMessage (L.base64Decode data) el filterPrompt (⟨0, el⟩, w) = (.ok body, s) ∧
          L.gzipNewReader body = .ok gzReader ∧ ReadAll gzReader = (b, none)) ∧
    ((Decode L data keyring w).1.bytes = none ↔ (Decode L data keyring w).1.err ≠ none) := by
  refine ⟨?_, ?_, ?_, ?_, ?_, ?_, ?_, ?_, ?_, ?_, ?_, ?_, ?_, ?_, ?_⟩
  · intro err h; simp [encode, h]
  · intro pw err h1 h2; simp [encode, h1, h2]
  · intro pw err h1 h2 h3; simp [encode, h1, h2, h3]
  · intro pw err h1 h2 h3 h4; simp [encode, h1, h2, h3, h4]
  · intro pw err h1 h2 h3 h4 h5; simp [encode, h1, h2, h3, h4, h5]
  · intro b hb
    unfold encode at hb ⊢
    cases h1 : L.Encrypt entityList with
    | error e => simp [h1] at hb
    | ok pw =>
      cases h2 : L.gzWrite data with
      | some e => simp [h1, h2] at hb
      | none =>
        cases h3 : L.gzClose data with
        | some e => simp [h1, h2, h3] at hb
        | none =>
          cases h4 : L.pgpClose entityList data with
          | some e => simp [h1, h2, h3, h4] at hb
          | none =>
            cases h5 : L.base64Close data with
            | some e => simp [h1, h2, h3, h4, h5] at hb
            | none =>
              simp only [h1, h2, h3, h4, h5, Option.some.injEq] at hb
              exact ⟨rfl, pw, rfl, rfl, rfl, rfl, rfl, hb.symm⟩
  · unfold encode
    cases L.Encrypt entityList with
    | error e => simp
    | ok pw =>
      cases L.gzWrite data with
      | some e => simp
      | none =>
        cases L.gzClose data with
        | some e => simp
        | none =>
          cases L.pgpClose entityList data with
          | some e => simp
          | none => cases L.base64Close data <;> simp
  · intro err h; simp [Encode, EncodeWith, h]
  · intro el h; simp [Encode, EncodeWith, h]
  · intro err h; simp [Decode, h]
  · intro el err s h1 h2; simp [Decode, h1, h2]
  · intro el body err s h1 h2 h3; simp [Decode, h1, h2, h3]
  · intro el body gz read err s h1 h2 h3 h4; simp [Decode, h1, h2, h3, h4]
  · intro b hb
    unfold Decode at hb ⊢
    cases h1 : L.ReadKeyRing keyring with
    | error e => simp [h1] at hb
    | ok el =>
      rcases h2 : L.ReadMessage (L.base64Decode data) el filterPrompt (⟨0, el⟩, w) with ⟨r, s⟩
      cases r with
      | error e => simp [h1, h2] at hb
      | ok body =>
        cases h3 : L.gzipNewReader body with
        | error e => simp [h1, h2, h3] at hb
        | ok gz =>
          rcases h4 : ReadAll gz with ⟨read, e⟩
          cases e with
          | some e => simp [h1, h2, h3, h4] at hb
          | none =>
            simp only [h1, h2, h3, h4, Option.some.injEq] at hb
            subst hb
            exact ⟨by simp [h2, h3, h4], el, body, gz, s, rfl, h2, h3, h4⟩
  · unfold Decode
    cases h1 : L.ReadKeyRing keyring with
    | error e => simp
    | ok el =>
      rcases h2 : L.ReadMessage (L.base64Decode data) el filterPrompt (⟨0, el⟩, w) with ⟨r, s⟩
      cases r with
      | error e => simp [h2]
      | ok body =>
        cases h3 : L.gzipNewReader body with
        | error e => simp [h2, h3]
        | ok gz =>
          rcases h4 : ReadAll gz with ⟨read, e⟩
          cases e <;> simp [h2, h3, h4]

/-- C6 at a concrete input: the message is encrypted to bob and decrypts once his key is
unlocked, but its contents are no gzip stream; `Decode` returns the error of the gzip
header and no bytes. -/
theorem no_partial_results_witness :
    (Decode exampleLib ("xy".toList.reverse ++ [';', Char.ofNat 2]) "sec".toList
      (typing ["pw-b"])).1 = ⟨none, some (Err.other 3)⟩ :=
  (no_partial_results exampleLib ("xy".toList.reverse ++ [';', Char.ofNat 2]) "sec".toList []
    id (typing ["pw-b"])).2.2.2.2.2.2.2.2.2.2.2.1
    [alice.withPrivateKey 10 true "pw-a", bob.withPrivateKey 11 true "pw-b"]
    ⟨"xy".toList, none⟩ (Err.other 3)
    (⟨1, [alice.withPrivateKey 10 true "pw-a", bob.withPrivateKey 11 true "pw-b"]⟩,
      ⟨[], [11], [(0, "0000000B".toList)]⟩)
    rfl rfl rfl

/-- C7, as the code has it: when the passphrase read for the key the prompt chose does not
unlock it, `filter` returns the unlock error, `ReadMessage` passes it up, and `Decode`
returns that error and no plaintext after this one prompt, without asking for any other
candidate. -/
theorem Decode_unlock_failure_aborts (C : Codec) (fuel : Nat) (data secretKeyring : Bytes)
    (entityList : EntityList) (m : Message) (w : World) (candidates : List Key) (index : Nat)
    (k : Key) (keyid pw : GoString)
    (hkeyring : C.ReadKeyRing secretKeyring = .ok entityList)
    (hparse : C.parse (C.base64Decode data) = .ok m)
    (henc : m.IsEncrypted = true) (hsym : m.symKeys = [])
    (hscan : scanPubKeys w (m.EncryptedToKeyIds.flatMap (KeysById entityList)) []
      = (none, candidates))
    (hchosen : filterScan candidates 0 = (index, some (k, keyid)))
    (hline : w.nextEvent = TermEvent.line pw)
    (hwrong : ∀ priv, k.PrivateKey = some priv → TrimSpace pw ≠ priv.passphrase) :
    Decode (openpgpModel C (fuel + 1)) data secretKeyring w =
      (⟨none, some Err.unlockFailure⟩,
        { w with terminal := w.terminal.tail, prompts := w.prompts ++ [(index - 1, keyid)] }) := by
  obtain ⟨_, _, hk, _, _, _⟩ := filterScan_some _ _ _ _ _ hchosen
  have hkm : k ∈ candidates := List.getElem?_mem hk
  have hne : candidates.isEmpty = false := by
    cases candidates with
    | nil => simp at hkm
    | cons a l => rfl
  rcases scanPubKeys_candidates w _ _ _ hscan k hkm with h | ⟨priv, hpriv, hlocked⟩
  · simp at h
  · have hw := hwrong priv hpriv
    have hl1 : priv.isEncrypted
        { terminal := w.terminal.tail, unlocked := w.unlocked,
          prompts := w.prompts ++ [(index - 1, keyid)] } = true := by
      exact (isEncrypted_congr priv w _ rfl).trans hlocked
    simp [Decode, openpgpModel, ReadMessageModel, FindKey, hkeyring, hparse, henc, hsym, hscan,
      hne, filterPrompt, filterKeys.filter, hchosen, hline, hpriv, hl1, PrivateKey.Decrypt, hw]

/-- C7 at a concrete input: alice's and bob's keys are both candidates, the first line
typed is not alice's passphrase. -/
theorem Decode_unlock_failure_aborts_witness :
    Decode exampleLib ['o', 'l', 'l', 'e', 'h', 'z', ';', Char.ofNat 2, Char.ofNat 1]
        "sec".toList (typing ["wrong", "pw-b"]) =
      (⟨none, some Err.unlockFailure⟩,
        { typing ["wrong", "pw-b"] with
          terminal := (typing ["wrong", "pw-b"]).terminal.tail,
          prompts := (typing ["wrong", "pw-b"]).prompts ++ [(1 - 1, "0000000A".toList)] }) :=
  Decode_unlock_failure_aborts
    (exampleCodec [alice, bob]
      [alice.withPrivateKey 10 true "pw-a", bob.withPrivateKey 11 true "pw-b"]) 2
    ['o', 'l', 'l', 'e', 'h', 'z', ';', Char.ofNat 2, Char.ofNat 1] "sec".toList
    [alice.withPrivateKey 10 true "pw-a", bob.withPrivateKey 11 true "pw-b"]
    ⟨true, [1, 2], [], ⟨"zhello".toList, none⟩⟩ (typing ["wrong", "pw-b"])
    [(alice.withPrivateKey 10 true "pw-a").key, (bob.withPrivateKey 11 true "pw-b").key]
    1 (alice.withPrivateKey 10 true "pw-a").key "0000000A".toList "wrong".toList
    rfl rfl rfl rfl (by decide) (by decide) (by decide) (by decide)

/-- C7 fails as stated: alice's and bob's locked keys are both candidates for the message,
the terminal yields a wrong passphrase and then bob's; `Decode` fails with the unlock
error after the one prompt for alice's key, and bob's key is never tried, although on its
own it decodes the message with the line that was left unread. -/
theorem Decode_unlock_failure_not_skipped :
    encode exampleLib "hello".toList [alice, bob]
      = ⟨some ['o', 'l', 'l', 'e', 'h', 'z', ';', Char.ofNat 2, Char.ofNat 1], none⟩ ∧
    Decode exampleLib ['o', 'l', 'l', 'e', 'h', 'z', ';', Char.ofNat 2, Char.ofNat 1]
        "sec".toList (typing ["wrong", "pw-b"]) =
      (⟨none, some Err.unlockFailure⟩,
        ⟨[TermEvent.line "pw-b".toList], [], [(0, "0000000A".toList)]⟩) ∧
    (Decode
        (openpgpModel (exampleCodec [alice, bob] [bob.withPrivateKey 11 true "pw-b"]) 3)
        ['o', 'l', 'l', 'e', 'h', 'z', ';', Char.ofNat 2, Char.ofNat 1]
        "sec".toList (typing ["pw-b"])).1 = ⟨some "hello".toList, none⟩ := by
  decide

/-- C8: in every sequence of calls of `filter` on one receiver with one list of keys,
whatever the world each call is made in, the indices of the keys chosen for the prompt
increase strictly from call to call, so no key is chosen twice and at most `len(keys)`
calls choose one; every key chosen has a public key with a non-empty short key id; a call
prints at most the one prompt for its chosen key; a call that chooses no key returns
`io.EOF` and leaves the world as it was; once a call has chosen no key no later call
chooses one; and the calls after the first `len(keys)` ones choose none. -/
theorem filter_never_prompts_twice (keys : List Key) (calls : List (Bool × World))
    (fk : filterKeys) :
    ((filterCalls keys calls fk).1.filterMap (fun c => c.chosen)).Pairwise (· < ·) ∧
    ((filterCalls keys calls fk).1.filterMap (fun c => c.chosen)).Nodup ∧
    ((filterCalls keys calls fk).1.filterMap (fun c => c.chosen)).length ≤ keys.length ∧
    (∀ i ∈ (filterCalls keys calls fk).1.filterMap (fun c => c.chosen),
        fk.index ≤ i ∧ i < keys.length ∧ ∃ k, keys[i]? = some k ∧ k.promptable = true) ∧
    (∀ c ∈ (filterCalls keys calls fk).1,
        c.after.prompts = c.before.prompts ∨
        ∃ i keyid, c.chosen = some i ∧ c.after.prompts = c.before.prompts ++ [(i, keyid)]) ∧
    (∀ c ∈ (filterCalls keys calls fk).1,
        c.chosen = none → c.result = ⟨none, some Err.EOF⟩ ∧ c.after = c.before) ∧
    ((filterCalls keys calls fk).1.Pairwise (fun a b => a.chosen = none → b.chosen = none)) ∧
    (∀ n c, (filterCalls keys calls fk).1[n]? = some c → keys.length ≤ n →
        c.chosen = none ∧ c.result = ⟨none, some Err.EOF⟩ ∧ c.after = c.before) := by
  obtain ⟨h1, h2, h3, h4, h5, h6, h7⟩ := filterCalls_invariant keys calls fk
  refine ⟨h2, ?_, by omega, h1, h4, h5, h7, ?_⟩
  · exact h2.imp (fun h => Nat.ne_of_lt h)
  · intro n c hn hle
    have hc := h6 n c hn (by omega)
    exact ⟨hc, h5 c (List.getElem?_mem hn) hc⟩

/-- C8 at a concrete input: of four keys the first has no public key and the third an
empty short key id; five calls choose the keys 1 and 3 and then none. -/
theorem filter_never_prompts_twice_witness :
    (filterCalls
        [⟨none, none⟩, (alice.withPrivateKey 10 true "pw-a").key,
          ⟨some ⟨9, []⟩, none⟩, (bob.withPrivateKey 11 true "pw-b").key]
        [(false, typing ["x"]), (true, typing []), (false, typing ["y"]),
          (false, typing ["pw-a"]), (true, typing ["z"])] ⟨0, []⟩).1.map (fun c => c.chosen)
      = [some 1, some 3, none, none, none] ∧
    ((filterCalls
        [⟨none, none⟩, (alice.withPrivateKey 10 true "pw-a").key,
          ⟨some ⟨9, []⟩, none⟩, (bob.withPrivateKey 11 true "pw-b").key]
        [(false, typing ["x"]), (true, typing []), (false, typing ["y"]),
          (false, typing ["pw-a"]), (true, typing ["z"])] ⟨0, []⟩).1.filterMap
      (fun c => c.chosen)).Nodup :=
  ⟨by decide, (filter_never_prompts_twice _ _ _).2.1⟩

/-- C9: `pubkeyFilter.Entities` returns at most one entity: none when no entity of the
keyring has an identity name containing a pattern, and otherwise exactly the first entity
in keyring order that has one; the result is the same whatever the order in which the
identities of an entity and the patterns are iterated. -/
theorem Entities_first_match (pk : pubkeyFilter) (ents : List Entity) :
    (pk.Entities ents).length ≤ 1 ∧
    ((∀ e ∈ ents, ¬ Selected pk e) → pk.Entities ents = []) ∧
    (∀ pre e post, ents = pre ++ e :: post → (∀ x ∈ pre, ¬ Selected pk x) → Selected pk e →
        pk.Entities ents = [e]) ∧
    (∀ (pk' : pubkeyFilter) (ents' : List Entity), pk'.Perm pk →
        List.Forall₂ Entity.Reordered ents ents' →
        List.Forall₂ Entity.Reordered (pk.Entities ents) (pk'.Entities ents')) := by
  refine ⟨Entities_length_le pk ents, Entities_of_none pk ents, ?_, ?_⟩
  · intro pre e post hents hpre he
    rw [hents]
    exact Entities_of_first pk pre e post hpre he
  · intro pk' ents' hp he
    exact Entities_reordered pk pk' ents ents' hp he

/-- C9 at a concrete input: `bob@dev` does not match `ops`, `alice@ops` does, and the result
is alice alone although `carol@ops` matches too. -/
theorem Entities_first_match_witness :
    pubkeyFilter.Entities ["dev-x".toList, "ops".toList] [bob, alice, carol] = [alice] :=
  (Entities_first_match ["dev-x".toList, "ops".toList] [bob, alice, carol]).2.2.1
    [bob] alice [carol] rfl (by decide) (by decide)

/-- C10: for every non-empty storage key the loop of `setCmd` terminates (every fuel above
the length of the key gives the same pattern) and the pattern is a non-empty prefix of
the key; so the selector is never handed the empty pattern, which every name contains. -/
theorem keySelector_prefix_nonempty (key : GoString) (hkey : key ≠ []) :
    ∃ p, (∀ fuel, key.length < fuel → keySelector fuel key = some [p]) ∧ p ≠ [] ∧ p <+: key ∧
      ∀ name, Contains name [] = true := by
  obtain ⟨p, h1, h2, h3⟩ := keySelector_returns key hkey
  refine ⟨p, h1, h2, h3, ?_⟩
  intro name
  rw [Contains_iff]
  exact List.nil_infix

/-- C10 at a concrete input: the key `//a/b`, with a repeated leading separator. -/
theorem keySelector_prefix_nonempty_witness :
    ∃ p, (∀ fuel, "//a/b".toList.length < fuel → keySelector fuel "//a/b".toList = some [p]) ∧
      p ≠ [] ∧ p <+: "//a/b".toList ∧ ∀ name, Contains name [] = true :=
  keySelector_prefix_nonempty "//a/b".toList (by decide)


end Crypt
